import Mathlib

/-!
# godirwalk: `readdirents` and `readdirnames` (readdir_unix.go)

A shallow embedding of `src/readdir_unix.go`.

* Go strings and byte slices are lists of bytes (`List Nat`, each byte read
  modulo 256).
* The operating system is a `World`: the answers of open, of the k-th batch
  read, of the metadata queries and of close.
* The scratch buffer is a list of `bufsize` bytes that every batch read
  overwrites from the front; a record is decoded by reading its fields at
  fixed offsets from the cursor (`DirentLayout`), as the source does through
  `unsafe.Pointer`.  A read that leaves the scratch buffer has no defined
  value (`Outcome.wild`).
* Both loops of `readdirents` are unbounded in the source, so the embedding
  takes a fuel argument; `Outcome.timeout` means the fuel ran out.
* Every function also returns the list of operating-system calls it made.
-/

namespace Godirwalk

/-! ## Go values -/

/-- Go `string` and `[]byte` values are sequences of bytes. -/
abbrev GoString := List Nat

/-- Result of a system call: a value, or an `errno`. -/
inductive Sys (α : Type) where
  | ok (a : α)
  | errno (e : Nat)
  deriving DecidableEq, Repr

/-- Go `error` values that `readdirents` can see or build.
`errno` is a `syscall.Errno`, `pathError` is the `*os.PathError` that the
`os` package returns, and `wrap` is the result of `errors.Wrap(cause, msg)`
of `github.com/pkg/errors`. -/
inductive GoError where
  | errno (e : Nat)
  | pathError (op : String) (path : GoString) (err : Nat)
  | wrap (cause : GoError) (msg : String)
  deriving DecidableEq, Repr

/-- Calls made to the operating system, in the order they were made. -/
inductive Event where
  | open (path : GoString)
  | read (fd : Nat)
  | stat (path : GoString)
  | close (fd : Nat)
  deriving DecidableEq, Repr

/-- The operating system as seen by one call of `readdirents`.
`getdents fd k` is the answer to the k-th batch read on `fd` (counting from
zero): the bytes the kernel wants to write, or an errno.  `stat` follows
symbolic links, `lstat` does not (`readdirents` never calls `lstat`; it is
here to say what the type of a directory entry itself is).  Modes are Go
`os.FileMode` values.  `join` is `filepath.Join`. -/
structure World where
  openDir : GoString → Sys Nat
  getdents : Nat → Nat → Sys (List Nat)
  stat : GoString → Sys Nat
  lstat : GoString → Sys Nat
  close : Nat → Option Nat
  join : GoString → GoString → GoString

/-- Outcome of running Go code with a bounded number of loop iterations. -/
inductive Outcome (α : Type) where
  | done (a : α)
  | panic
  | wild
  | timeout
  deriving DecidableEq, Repr

/-! ## Constants of the Go standard library -/

namespace os

def ModeDir : Nat := 2 ^ 31
def ModeAppend : Nat := 2 ^ 30
def ModeExclusive : Nat := 2 ^ 29
def ModeTemporary : Nat := 2 ^ 28
def ModeSymlink : Nat := 2 ^ 27
def ModeDevice : Nat := 2 ^ 26
def ModeNamedPipe : Nat := 2 ^ 25
def ModeSocket : Nat := 2 ^ 24
def ModeSetuid : Nat := 2 ^ 23
def ModeSetgid : Nat := 2 ^ 22
def ModeCharDevice : Nat := 2 ^ 21
def ModeSticky : Nat := 2 ^ 20
def ModeIrregular : Nat := 2 ^ 19
def ModePerm : Nat := 0o777

/-- The mask `os.ModeType` of the Go standard library (Go 1.12 and later,
where it includes `ModeCharDevice` and `ModeIrregular`). -/
def ModeType : Nat :=
  ModeDir ||| ModeSymlink ||| ModeNamedPipe ||| ModeSocket ||| ModeDevice
    ||| ModeCharDevice ||| ModeIrregular

end os

namespace syscall

def DT_UNKNOWN : Nat := 0
def DT_FIFO : Nat := 1
def DT_CHR : Nat := 2
def DT_DIR : Nat := 4
def DT_BLK : Nat := 6
def DT_REG : Nat := 8
def DT_LNK : Nat := 10
def DT_SOCK : Nat := 12
def DT_WHT : Nat := 14

end syscall

/-- Byte layout of `syscall.Dirent` on the target platform: offset and width
of `Ino` and `Reclen`, offset of `Type`, offset and capacity of `Name`.
Multi-byte fields are little-endian. -/
structure DirentLayout where
  inoOff : Nat
  inoSize : Nat
  reclenOff : Nat
  reclenSize : Nat
  typeOff : Nat
  nameOff : Nat
  nameCap : Nat
  deriving DecidableEq, Repr

/-- The layout of `syscall.Dirent` on linux/amd64:
`Ino uint64; Off int64; Reclen uint16; Type uint8; Name [256]int8`. -/
def linuxAmd64 : DirentLayout :=
  { inoOff := 0, inoSize := 8, reclenOff := 16, reclenSize := 2,
    typeOff := 18, nameOff := 19, nameCap := 256 }

/-! ## The data model of the package -/

/-- Modelled from the spec: the declaration of the package's `Dirent` type is
not in readdir_unix.go.  The spec's `Entry` is a name and a type; the
composite literal of line 104 sets the fields `name` (a string) and
`modeType` (an `os.FileMode`, the node-type bits of the entry's mode). -/
structure Dirent where
  name : GoString
  modeType : Nat
  deriving DecidableEq, Repr

/-- What `readdirents` returns: `(Dirents, error)`, where `Dirents` is a slice
of `*Dirent`; a nil slice is `[]`. -/
structure Ret where
  entries : List Dirent
  err : Option GoError
  deriving DecidableEq, Repr

/-- What `readdirnames` returns: `([]string, error)`. -/
structure NamesRet where
  names : List GoString
  err : Option GoError
  deriving DecidableEq, Repr

/-- The constant `bufsize` of readdir_unix.go. -/
def bufsize : Nat := 16 * 1024

/-! ## Reading the scratch buffer -/

/-- The byte at address `i` of the scratch buffer, if `i` is inside it. -/
def byteAt (mem : List Nat) (i : Nat) : Option Nat :=
  (mem.get? i).map (· % 256)

/-- A little-endian unsigned field of `size` bytes at address `off`. -/
def readLE (mem : List Nat) (off : Nat) : Nat → Option Nat
  | 0 => some 0
  | size + 1 =>
    match byteAt mem off, readLE mem (off + 1) size with
    | some b, some rest => some (b + 256 * rest)
    | _, _ => none

/-- The call `bytes.IndexByte(nameBytes, 0)` where `nameBytes` is the window
of `cap` bytes at address `start`: scans `remaining` more bytes from index
`i`; `some (-1)` when there is no NUL, `none` when the scan leaves the
scratch buffer before finding one. -/
def indexNul (mem : List Nat) (start : Nat) : Nat → Nat → Option Int
  | 0, _ => some (-1)
  | remaining + 1, i =>
    match byteAt mem (start + i) with
    | none => none
    | some b => if b = 0 then some (i : Int) else indexNul mem start remaining (i + 1)

/-- Lines 57-62: the name of the record at `cur`, `nameBytes[:nameLength]`. -/
def extractName (L : DirentLayout) (mem : List Nat) (cur : Nat) : Option GoString :=
  match indexNul mem (cur + L.nameOff) L.nameCap 0 with
  | none => none
  | some idx =>
    let nameLength : Nat := if idx = -1 then L.nameCap else idx.toNat
    some (((mem.drop (cur + L.nameOff)).take nameLength).map (· % 256))

/-- Line 65: the test for the names "." and "..". -/
def isDotOrDotDot (nameBytes : GoString) : Bool :=
  (nameBytes.length == 1 && nameBytes.get? 0 == some 46) ||
  (nameBytes.length == 2 && nameBytes.get? 0 == some 46 && nameBytes.get? 1 == some 46)

/-- Lines 74-88: the cases of the switch on `de.Type` that set `mode`
without a metadata query; `none` is the `default` case. -/
def inlineMode (ty : Nat) : Option Nat :=
  if ty = syscall.DT_REG then some 0
  else if ty = syscall.DT_DIR then some os.ModeDir
  else if ty = syscall.DT_LNK then some os.ModeSymlink
  else if ty = syscall.DT_BLK then some os.ModeDevice
  else if ty = syscall.DT_CHR then some (os.ModeDevice ||| os.ModeCharDevice)
  else if ty = syscall.DT_FIFO then some os.ModeNamedPipe
  else if ty = syscall.DT_SOCK then some os.ModeSocket
  else none

/-! ## Library calls -/

/-- An open `*os.File`: its descriptor and the name it was opened with. -/
structure File where
  fd : Nat
  name : GoString
  deriving DecidableEq, Repr

/-- The call `os.Open(name)`; the error is a `*PathError`. -/
def os.Open (W : World) (name : GoString) : Except GoError File :=
  match W.openDir name with
  | .ok fd => .ok { fd := fd, name := name }
  | .errno e => .error (.pathError "open" name e)

/-- The call `os.Stat(name)` followed by `fi.Mode()`; the error is a `*PathError`. -/
def os.Stat (W : World) (name : GoString) : Except GoError Nat :=
  match W.stat name with
  | .ok mode => .ok mode
  | .errno e => .error (.pathError "stat" name e)

/-- The call `dh.Close()`; the error is a `*PathError`. -/
def File.Close (W : World) (dh : File) : Option GoError :=
  match W.close dh.fd with
  | none => none
  | some e => some (.pathError "close" dh.name e)

/-- The scratch buffer after the kernel has written `data` at its front;
the buffer holds `bufsize` bytes, so at most that many are written. -/
def fill (data buf : List Nat) : List Nat :=
  data.take bufsize ++ buf.drop (data.take bufsize).length

/-- The k-th call `syscall.ReadDirent(fd, scratchBuffer)`: the kernel writes
at most `bufsize` bytes at the front of the buffer and returns their count. -/
def syscall.ReadDirent (W : World) (fd k : Nat) (buf : List Nat) :
    Except GoError (Nat × List Nat) :=
  match W.getdents fd k with
  | .errno e => .error (.errno e)
  | .ok data => .ok ((data.take bufsize).length, fill data buf)

/-- The call `errors.Wrap(err, msg)`. -/
def errors.Wrap (err : GoError) (msg : String) : GoError := .wrap err msg

/-! ## readdirents -/

/-- What one iteration of the inner loop (lines 46-104) does. -/
inductive Step where
  /-- one of the two `continue` statements: nothing is appended -/
  | skip (cur' : Nat)
  /-- line 104: an entry is appended; `evs` are the calls made on the way -/
  | append (cur' : Nat) (d : Dirent) (evs : List Event)
  /-- lines 94-95: the function returns from inside the loop -/
  | ret (r : Ret) (evs : List Event)
  /-- line 48: slice bounds out of range -/
  | panic
  /-- a field of the record lies outside the scratch buffer -/
  | wild
  deriving DecidableEq, Repr

/-- Lines 46-104: the body of the inner loop at cursor `cur`, where
`buf = scratchBuffer[cur:n]` is not empty. -/
def decodeStep (L : DirentLayout) (W : World) (osDirname : GoString) (dh : File)
    (mem : List Nat) (n cur : Nat) : Step :=
  match readLE mem (cur + L.reclenOff) L.reclenSize with
  | none => .wild
  | some reclen =>
    if n - cur < reclen then .panic
    else
      match readLE mem (cur + L.inoOff) L.inoSize with
      | none => .wild
      | some ino =>
        if ino = 0 then .skip (cur + reclen)
        else
          match extractName L mem cur with
          | none => .wild
          | some nameBytes =>
            if isDotOrDotDot nameBytes then .skip (cur + reclen)
            else
              match byteAt mem (cur + L.typeOff) with
              | none => .wild
              | some ty =>
                match inlineMode ty with
                | some mode =>
                  .append (cur + reclen)
                    { name := nameBytes, modeType := mode &&& os.ModeType } []
                | none =>
                  let path := W.join osDirname nameBytes
                  match os.Stat W path with
                  | .error err =>
                    .ret { entries := [], err := some (errors.Wrap err "cannot Stat") }
                      [.stat path, .close dh.fd]
                  | .ok mode =>
                    .append (cur + reclen)
                      { name := nameBytes, modeType := mode &&& os.ModeType } [.stat path]

/-- How the inner loop ends: it runs off the end of the span (`next`), or
the function returns from inside it (`ret`). -/
inductive Flow where
  | next (entries : List Dirent) (trace : List Event)
  | ret (r : Ret) (trace : List Event)
  deriving DecidableEq, Repr

/-- Lines 45-105: `for len(buf) > 0 { ... }` with `buf = scratchBuffer[cur:n]`. -/
def decodeLoop (L : DirentLayout) (W : World) (osDirname : GoString) (dh : File)
    (mem : List Nat) (n : Nat) :
    Nat → Nat → List Dirent → List Event → Outcome Flow
  | 0, _, _, _ => .timeout
  | fuel + 1, cur, entries, trace =>
    if n ≤ cur then .done (.next entries trace)
    else
      match decodeStep L W osDirname dh mem n cur with
      | .skip cur' => decodeLoop L W osDirname dh mem n fuel cur' entries trace
      | .append cur' d evs =>
        decodeLoop L W osDirname dh mem n fuel cur' (entries ++ [d]) (trace ++ evs)
      | .ret r evs => .done (.ret r (trace ++ evs))
      | .panic => .panic
      | .wild => .wild

/-- Lines 34-110: the outer loop and the final close; `k` counts the batch
reads made so far. -/
def readLoop (L : DirentLayout) (W : World) (osDirname : GoString) (dh : File) :
    Nat → List Nat → Nat → List Dirent → List Event → Outcome (Ret × List Event)
  | 0, _, _, _, _ => .timeout
  | fuel + 1, scratchBuffer, k, entries, trace =>
    match syscall.ReadDirent W dh.fd k scratchBuffer with
    | .error err =>
      .done ({ entries := [], err := some (errors.Wrap err "cannot ReadDirent") },
        trace ++ [.read dh.fd, .close dh.fd])
    | .ok (n, scratchBuffer') =>
      if n ≤ 0 then
        match File.Close W dh with
        | some err =>
          .done ({ entries := [], err := some err }, trace ++ [.read dh.fd, .close dh.fd])
        | none =>
          .done ({ entries := entries, err := none }, trace ++ [.read dh.fd, .close dh.fd])
      else
        match decodeLoop L W osDirname dh scratchBuffer' n fuel 0 entries
            (trace ++ [.read dh.fd]) with
        | .done (.next entries' trace') =>
          readLoop L W osDirname dh fuel scratchBuffer' (k + 1) entries' trace'
        | .done (.ret r trace') => .done (r, trace')
        | .panic => .panic
        | .wild => .wild
        | .timeout => .timeout

/-- The function `readdirents` (lines 18-111). -/
def readdirents (L : DirentLayout) (W : World) (fuel : Nat) (osDirname : GoString) :
    Outcome (Ret × List Event) :=
  match os.Open W osDirname with
  | .error err =>
    .done ({ entries := [], err := some (errors.Wrap err "cannot Open") }, [.open osDirname])
  | .ok dh =>
    readLoop L W osDirname dh fuel (List.replicate bufsize 0) 0 [] [.open osDirname]

/-- The function `readdirnames` (lines 113-123). -/
def readdirnames (L : DirentLayout) (W : World) (fuel : Nat) (osDirname : GoString) :
    Outcome (NamesRet × List Event) :=
  match readdirents L W fuel osDirname with
  | .done (r, trace) =>
    match r.err with
    | some err => .done ({ names := [], err := some err }, trace)
    | none => .done ({ names := r.entries.map (·.name), err := none }, trace)
  | .panic => .panic
  | .wild => .wild
  | .timeout => .timeout

/-! ## The specification's view of a batch: a sequence of raw records -/

/-- The spec's `RawRecord`: identifier, declared length, inline type tag and
extracted name of the record that starts at some cursor. -/
structure RawRecord where
  ino : Nat
  reclen : Nat
  tag : Nat
  name : GoString
  deriving DecidableEq, Repr

/-- The record that starts at `cur`, when all its fields can be read. -/
def recordAt (L : DirentLayout) (mem : List Nat) (cur : Nat) : Option RawRecord :=
  match readLE mem (cur + L.reclenOff) L.reclenSize, readLE mem (cur + L.inoOff) L.inoSize,
      byteAt mem (cur + L.typeOff), extractName L mem cur with
  | some reclen, some ino, some ty, some nm =>
    some { ino := ino, reclen := reclen, tag := ty, name := nm }
  | _, _, _, _ => none

/-- Spec 4.2: walk the span `[0, n)` from `cur`, one record at a time, each
advancing the cursor by its declared length, until the cursor reaches the end;
`none` when a declared length is zero or overshoots the span, or a record
cannot be read.  At most `fuel` records. -/
def recordsFrom (L : DirentLayout) (mem : List Nat) (n : Nat) :
    Nat → Nat → Option (List RawRecord)
  | 0, cur => if n ≤ cur then some [] else none
  | fuel + 1, cur =>
    if n ≤ cur then some []
    else
      match recordAt L mem cur with
      | none => none
      | some r =>
        if r.reclen = 0 ∨ n - cur < r.reclen then none
        else (recordsFrom L mem n fuel (cur + r.reclen)).map (r :: ·)

/-- The records of the span `[0, n)`; a span of `n` bytes has at most `n`
records of positive length. -/
def records (L : DirentLayout) (mem : List Nat) (n : Nat) : Option (List RawRecord) :=
  recordsFrom L mem n n 0

/-- The records of successive batches, batch by batch, each batch read into
the scratch buffer left by the one before. -/
def batchRecords (L : DirentLayout) : List Nat → List (List Nat) → Option (List (List RawRecord))
  | _, [] => some []
  | mem, d :: ds =>
    match records L (fill d mem) (d.take bufsize).length, batchRecords L (fill d mem) ds with
    | some rs, some rest => some (rs :: rest)
    | _, _ => none

/-- The scratch buffer after a sequence of batches. -/
def fillAll : List Nat → List (List Nat) → List Nat
  | mem, [] => mem
  | mem, d :: ds => fillAll (fill d mem) ds

/-- Spec 4.2: a record is kept when its identifier is not zero and its name
is neither "." nor "..". -/
def RawRecord.kept (r : RawRecord) : Bool :=
  r.ino != 0 && r.name != [46] && r.name != [46, 46]

/-- A kept record needs a metadata query when its tag is none of the seven
tags of the switch. -/
def RawRecord.needsStat (r : RawRecord) : Bool :=
  r.kept && (inlineMode r.tag).isNone

/-- The entry made from a kept record: its name, and its mode masked to
the node-type bits, the mode coming from the tag or else from the metadata
query on the joined path. -/
def specEntry (W : World) (osDirname : GoString) (r : RawRecord) : Dirent :=
  { name := r.name
    modeType :=
      (match inlineMode r.tag with
        | some mode => mode
        | none =>
          match W.stat (W.join osDirname r.name) with
          | .ok mode => mode
          | .errno _ => 0) &&& os.ModeType }

/-- The list the spec promises for a sequence of records: drop the records
that are not kept, one entry for each of the others, order unchanged. -/
def specEntries (W : World) (osDirname : GoString) (recs : List RawRecord) : List Dirent :=
  (recs.filter RawRecord.kept).map (specEntry W osDirname)

/-- Every metadata query that the records need succeeds. -/
def StatsOk (W : World) (osDirname : GoString) (recs : List RawRecord) : Prop :=
  ∀ r ∈ recs, r.needsStat = true → ∃ mode, W.stat (W.join osDirname r.name) = .ok mode

/-- What the inner loop does on a sequence of records, record by
record: skip the ones that are not kept, append an entry for each of the
others, and return from the function at the first failing metadata query. -/
def processRecords (W : World) (osDirname : GoString) (dh : File) :
    List RawRecord → List Dirent → List Event → Flow
  | [], entries, trace => .next entries trace
  | r :: rs, entries, trace =>
    if r.kept then
      match inlineMode r.tag with
      | some mode =>
        processRecords W osDirname dh rs
          (entries ++ [{ name := r.name, modeType := mode &&& os.ModeType }]) trace
      | none =>
        match os.Stat W (W.join osDirname r.name) with
        | .error err =>
          .ret { entries := [], err := some (errors.Wrap err "cannot Stat") }
            (trace ++ [.stat (W.join osDirname r.name), .close dh.fd])
        | .ok mode =>
          processRecords W osDirname dh rs
            (entries ++ [{ name := r.name, modeType := mode &&& os.ModeType }])
            (trace ++ [.stat (W.join osDirname r.name)])
    else processRecords W osDirname dh rs entries trace

/-- The metadata queries made for a sequence of records, in order. -/
def statEvents (W : World) (osDirname : GoString) (recs : List RawRecord) : List Event :=
  (recs.filter RawRecord.needsStat).map (fun r => Event.stat (W.join osDirname r.name))

/-- The calls made for a sequence of batches: one batch read each, then the
metadata queries for its records. -/
def batchEvents (W : World) (osDirname : GoString) (dh : File) :
    List (List RawRecord) → List Event
  | [] => []
  | rs :: rss => Event.read dh.fd :: (statEvents W osDirname rs ++ batchEvents W osDirname dh rss)

/-- What holds of every entry in a returned list: it is not named "." or
"..", and its type has no bit outside the node-type mask. -/
def GoodEntry (d : Dirent) : Prop :=
  isDotOrDotDot d.name = false ∧ d.modeType &&& os.ModeType = d.modeType

/-- The spec's `TypeTag` (section 3). -/
inductive TypeTag where
  | Unknown
  | Regular
  | Directory
  | Symlink
  | BlockDevice
  | CharDevice
  | NamedPipe
  | Socket
  deriving DecidableEq, Repr

/-- The `TypeTag` that the type bits of a Go `os.FileMode` stand for: no
type bit is a regular file, `ModeDir` a directory, `ModeSymlink` a symbolic
link, `ModeDevice` a block device, `ModeDevice | ModeCharDevice` a character
device, `ModeNamedPipe` a FIFO, `ModeSocket` a socket. -/
def typeTagOf (mode : Nat) : TypeTag :=
  let t := mode &&& os.ModeType
  if t = 0 then .Regular
  else if t = os.ModeDir then .Directory
  else if t = os.ModeSymlink then .Symlink
  else if t = os.ModeDevice then .BlockDevice
  else if t = (os.ModeDevice ||| os.ModeCharDevice) then .CharDevice
  else if t = os.ModeNamedPipe then .NamedPipe
  else if t = os.ModeSocket then .Socket
  else .Unknown

/-- Spec 4.3, the direct table from inline type tags to `TypeTag`; `none`
for a tag that needs the fallback. -/
def specTagTable (ty : Nat) : Option TypeTag :=
  if ty = syscall.DT_REG then some .Regular
  else if ty = syscall.DT_DIR then some .Directory
  else if ty = syscall.DT_LNK then some .Symlink
  else if ty = syscall.DT_BLK then some .BlockDevice
  else if ty = syscall.DT_CHR then some .CharDevice
  else if ty = syscall.DT_FIFO then some .NamedPipe
  else if ty = syscall.DT_SOCK then some .Socket
  else none

/-- Two answers of the metadata query that differ at most in bits outside
the node-type mask: the same errno, or two modes with the same type bits. -/
def SameType (a b : Sys Nat) : Prop :=
  match a, b with
  | .ok m1, .ok m2 => m1 &&& os.ModeType = m2 &&& os.ModeType
  | .errno e1, .errno e2 => e1 = e2
  | _, _ => False

/-- The mode bits that the source comment lists as not identifying the type:
permission, setuid, setgid, sticky, append, exclusive and temporary. -/
def nonTypeBits : Nat :=
  os.ModePerm ||| os.ModeSetuid ||| os.ModeSetgid ||| os.ModeSticky ||| os.ModeAppend
    ||| os.ModeExclusive ||| os.ModeTemporary

/-- An error carries a path when a `*os.PathError` for that path is the error
itself or is reached from it through the causes of `errors.Wrap`. -/
def GoError.carriesPath : GoError → GoString → Bool
  | .errno _, _ => false
  | .pathError _ p _, path => p == path
  | .wrap cause _, path => cause.carriesPath path

/-- The OS error at the bottom of an error: the errno itself, the errno held
by a `*os.PathError`, or that of the cause of an `errors.Wrap`. -/
def GoError.osError : GoError → Nat
  | .errno e => e
  | .pathError _ _ e => e
  | .wrap cause _ => cause.osError

/-- The event is a close of a directory handle. -/
def Event.isClose : Event → Bool
  | .close _ => true
  | _ => false

/-- The fixed-capacity name field of the record at `cur`, as far as it lies
inside the scratch buffer: the `nameCap` bytes from `cur + nameOff` on. -/
def nameField (L : DirentLayout) (mem : List Nat) (cur : Nat) : List Nat :=
  ((mem.drop (cur + L.nameOff)).take L.nameCap).map (· % 256)

/-- Spec 4.2: the true name ends at the first NUL byte of the field if there
is one, otherwise it is the whole field. -/
def specName (field : List Nat) : List Nat :=
  field.takeWhile (· != 0)

/-- The name of the entry was extracted from the name field of some record
in some state of the scratch buffer. -/
def NameFrom (L : DirentLayout) (d : Dirent) : Prop :=
  ∃ mem cur, extractName L mem cur = some d.name

/-! ## Removed slots with other bytes -/

/-- Offset `j` inside a record lies in the field of `size` bytes at `off`. -/
def inField (off size j : Nat) : Bool :=
  decide (off ≤ j) && decide (j < off + size)

/-- The buffers `m` and `m2` hold the same byte at each offset `j < len`
from `cur` that `keep` selects. -/
def agreeOn (m m2 : List Nat) (cur len : Nat) (keep : Nat → Bool) : Bool :=
  (List.range len).all (fun j => !(keep j) || m2.get? (cur + j) == m.get? (cur + j))

/-- The span `[0, n)` of `m`, walked from `cur` by declared lengths the way
the inner loop walks it, is a sequence of records that keep to themselves,
and `m2` differs from `m` on it only in removed slots.  A record keeps to
itself when its declared length stays inside the span and covers its
identifier and length fields and, if the record is live (identifier not
zero), also its type tag, its name and the byte after the name.  In a live
record `m2` has the same bytes as `m`; in a record with identifier zero only
the identifier and length fields need be the same.  At most `fuel`
records. -/
def slotsOnly (L : DirentLayout) (m m2 : List Nat) (n : Nat) : Nat → Nat → Bool
  | 0, cur => decide (n ≤ cur)
  | fuel + 1, cur =>
    if n ≤ cur then true
    else
      match readLE m (cur + L.reclenOff) L.reclenSize, readLE m (cur + L.inoOff) L.inoSize with
      | some reclen, some ino =>
        decide (reclen ≤ n - cur) && decide (L.inoOff + L.inoSize ≤ reclen) &&
          decide (L.reclenOff + L.reclenSize ≤ reclen) &&
          (if ino = 0 then
            agreeOn m m2 cur reclen
              (fun j => inField L.inoOff L.inoSize j || inField L.reclenOff L.reclenSize j)
          else
            match extractName L m cur with
            | some nm =>
              decide (L.typeOff < reclen) && decide (L.nameOff + nm.length < reclen) &&
                agreeOn m m2 cur reclen (fun _ => true)
            | none => false) &&
          slotsOnly L m m2 n fuel (cur + reclen)
      | _, _ => false

/-- The batch read `b` is the batch read `a` with other bytes in removed
slots: the same failure, or data of the same length such that the bytes of
`a`, on their own, are a sequence of records that keep to themselves and `b`
differs from them only in removed slots (`slotsOnly`). -/
def batchRel (L : DirentLayout) (a b : Sys (List Nat)) : Bool :=
  match a, b with
  | .errno e, .errno e' => e == e'
  | .ok d, .ok d' =>
    (d'.take bufsize).length == (d.take bufsize).length &&
      slotsOnly L (d.take bufsize) (d'.take bufsize) (d.take bufsize).length
        (d.take bufsize).length 0
  | _, _ => false

/-! ## Byte strings for examples -/

/-- The `size`-byte little-endian encoding of `v`. -/
def leBytes : Nat → Nat → List Nat
  | 0, _ => []
  | size + 1, v => v % 256 :: leBytes size (v / 256)

/-- A linux/amd64 record: identifier, zero offset, declared length, tag,
name, then NUL bytes up to the declared length. -/
def linuxRecord (ino reclen ty : Nat) (name : GoString) : List Nat :=
  let hdr := leBytes 8 ino ++ leBytes 8 0 ++ leBytes 2 reclen ++ [ty] ++ name
  hdr ++ List.replicate (reclen - hdr.length) 0

/-- The path "/d". -/
def exDir : GoString := [47, 100]

/-- One batch of five linux/amd64 records: ".", "..", the regular file "a",
a removed slot that still holds the name "b", and "c" with tag `DT_UNKNOWN`. -/
def exBatch : List Nat :=
  linuxRecord 1 24 syscall.DT_DIR [46] ++ linuxRecord 2 24 syscall.DT_DIR [46, 46] ++
    linuxRecord 5 24 syscall.DT_REG [97] ++ linuxRecord 0 24 syscall.DT_REG [98] ++
    linuxRecord 7 24 syscall.DT_UNKNOWN [99]

/-- The records of `exBatch`. -/
def exRecords : List RawRecord :=
  [{ ino := 1, reclen := 24, tag := 4, name := [46] },
   { ino := 2, reclen := 24, tag := 4, name := [46, 46] },
   { ino := 5, reclen := 24, tag := 8, name := [97] },
   { ino := 0, reclen := 24, tag := 8, name := [98] },
   { ino := 7, reclen := 24, tag := 0, name := [99] }]

/-- A directory "/d" on descriptor 3 whose listing is `exBatch` followed by
the end of the directory; every metadata query answers a directory with
permissions 0755. -/
def exWorld : World :=
  { openDir := fun _ => .ok 3
    getdents := fun _ k => if k = 0 then .ok exBatch else .ok []
    stat := fun _ => .ok (os.ModeDir ||| 0o755)
    lstat := fun _ => .ok (os.ModeDir ||| 0o755)
    close := fun _ => none
    join := fun d nm => d ++ [47] ++ nm }

/-- A listing of "/d" in two batches in which "." and ".." come first,
last, in the second batch and twice: ".", "a", ".." and then "..", "b", ".",
".". -/
def exWorldDots : World :=
  { exWorld with
    getdents := fun _ k =>
      if k = 0 then
        .ok (linuxRecord 1 24 syscall.DT_DIR [46] ++ linuxRecord 5 24 syscall.DT_REG [97] ++
          linuxRecord 2 24 syscall.DT_DIR [46, 46])
      else if k = 1 then
        .ok (linuxRecord 2 24 syscall.DT_DIR [46, 46] ++ linuxRecord 6 24 syscall.DT_LNK [98] ++
          linuxRecord 1 24 syscall.DT_DIR [46] ++ linuxRecord 1 24 syscall.DT_DIR [46])
      else .ok [] }

/-- The world `exWorld`, except that close fails with errno 5. -/
def exWorldCloseFails : World :=
  { exWorld with close := fun _ => some 5 }

/-- The batch `exBatch` with other bytes in the removed slot: tag
`DT_DIR` and name "xyz" instead of tag `DT_REG` and name "b". -/
def exBatchAlt : List Nat :=
  linuxRecord 1 24 syscall.DT_DIR [46] ++ linuxRecord 2 24 syscall.DT_DIR [46, 46] ++
    linuxRecord 5 24 syscall.DT_REG [97] ++ linuxRecord 0 24 syscall.DT_DIR [120, 121, 122] ++
    linuxRecord 7 24 syscall.DT_UNKNOWN [99]

/-- The world `exWorld` where "/d/c" is a symbolic link to a directory:
`lstat` answers a symbolic link, `stat` answers the directory it points to. -/
def exWorldSymlink : World :=
  { exWorld with
    stat := fun _ => .ok (os.ModeDir ||| 0o755)
    lstat := fun _ => .ok (os.ModeSymlink ||| 0o777) }

/-- The world `exWorld` where "/d/c" is a dangling symbolic link: `lstat`
answers a symbolic link, `stat` fails with errno 2 (ENOENT). -/
def exWorldDangling : World :=
  { exWorld with
    stat := fun _ => .errno 2
    lstat := fun _ => .ok (os.ModeSymlink ||| 0o777) }

/-- A listing of "/d" where the first batch read answers `exBatch` and the
second fails with errno 5 (EIO). -/
def exWorldReadFails : World :=
  { exWorld with getdents := fun _ k => if k = 0 then .ok exBatch else .errno 5 }

/-- The world `exWorld` where every metadata query fails with errno 2
(ENOENT), as when "c" was removed after the listing. -/
def exWorldStatFails : World :=
  { exWorld with stat := fun _ => .errno 2 }

/-- A world in which "/d" cannot be opened: errno 2 (ENOENT). -/
def exWorldNoDir : World :=
  { exWorld with openDir := fun _ => .errno 2 }

/-- A layout like linux/amd64 but with a name field of four bytes. -/
def exLayout4 : DirentLayout :=
  { linuxAmd64 with nameCap := 4 }

/-- A span of 24 bytes holding one live linux/amd64 record named "a" whose
declared length is zero. -/
def exZeroReclen : List Nat :=
  linuxRecord 5 0 syscall.DT_REG [97] ++ [0, 0, 0, 0]

/-- A span of two linux/amd64 records with declared length 24 each: "c" with
tag `DT_UNKNOWN`, then the regular file "e". -/
def exSpanUnknownFirst : List Nat :=
  linuxRecord 7 24 syscall.DT_UNKNOWN [99] ++ linuxRecord 8 24 syscall.DT_REG [101]

/-- Two linux/amd64 records of declared length 24: the first is named
"abcde" and holds no NUL after its name (19 bytes of header and 5 of name fill
the record), the second has identifier `ino2` and is named "b". -/
def exUnterminated (ino2 : Nat) : List Nat :=
  linuxRecord 5 24 syscall.DT_REG [97, 98, 99, 100, 101] ++ linuxRecord ino2 24 syscall.DT_REG [98]

/-- A listing of "/d" in two batches: first the records "x" and "y" (48
bytes, "y" with identifier 7), then a single record of 24 bytes named "abcde"
with no NUL after its name. -/
def exWorldStale : World :=
  { exWorld with
    getdents := fun _ k =>
      if k = 0 then
        .ok (linuxRecord 4 24 syscall.DT_REG [120] ++ linuxRecord 7 24 syscall.DT_REG [121])
      else if k = 1 then .ok (linuxRecord 5 24 syscall.DT_REG [97, 98, 99, 100, 101])
      else .ok [] }

/-- A batch of two linux/amd64 records of declared length 24: the regular
file "x", then a removed slot (identifier zero) whose name byte is `b`. -/
def exSlotBatch (b : Nat) : List Nat :=
  linuxRecord 4 24 syscall.DT_REG [120] ++ linuxRecord 0 24 syscall.DT_REG [b]

/-- A listing of "/d" in two batches: `exSlotBatch b`, then one record of 43
bytes whose name, 24 times "a", fills it to the end without a NUL. -/
def exWorldSlot (b : Nat) : World :=
  { exWorld with
    getdents := fun _ k =>
      if k = 0 then .ok (exSlotBatch b)
      else if k = 1 then .ok (linuxRecord 5 43 syscall.DT_REG (List.replicate 24 97))
      else .ok [] }

/-- The batch reads of `exWorld` with the removed slot of `exBatch` holding
other bytes (`exBatchAlt`). -/
def exGetdentsAlt : Nat → Nat → Sys (List Nat) :=
  fun _ k => if k = 0 then .ok exBatchAlt else .ok []

/-! ## Theorems -/

/-! ### The inner loop on a well-formed span -/

theorem isDotOrDotDot_iff (nm : GoString) :
    isDotOrDotDot nm = true ↔ nm = [46] ∨ nm = [46, 46] := by
  match nm with
  | [] => simp [isDotOrDotDot]
  | [a] => simp [isDotOrDotDot]
  | [a, b] => simp [isDotOrDotDot]
  | a :: b :: c :: rest => simp [isDotOrDotDot]

theorem kept_eq (r : RawRecord) :
    r.kept = (!(r.ino == 0) && !(isDotOrDotDot r.name)) := by
  have h := isDotOrDotDot_iff r.name
  unfold RawRecord.kept
  cases hd : isDotOrDotDot r.name
  · have : ¬ (r.name = [46] ∨ r.name = [46, 46]) := by
      rw [← h, hd]; simp
    rw [not_or] at this
    have h1 : (r.name == [46]) = false := beq_eq_false_iff_ne.mpr this.1
    have h2 : (r.name == [46, 46]) = false := beq_eq_false_iff_ne.mpr this.2
    simp [h1, h2, bne]
  · rcases h.mp hd with h1 | h1 <;> simp [h1, bne]

/-- One iteration of the inner loop on a record whose fields can all be read
and whose declared length fits in the rest of the span. -/
theorem decodeStep_of_record (L : DirentLayout) (W : World) (osDirname : GoString)
    (dh : File) (mem : List Nat) (n cur : Nat) (r : RawRecord)
    (hr : recordAt L mem cur = some r) (hfit : ¬ n - cur < r.reclen) :
    decodeStep L W osDirname dh mem n cur =
      if r.kept then
        match inlineMode r.tag with
        | some mode =>
          .append (cur + r.reclen) { name := r.name, modeType := mode &&& os.ModeType } []
        | none =>
          match os.Stat W (W.join osDirname r.name) with
          | .error err =>
            .ret { entries := [], err := some (errors.Wrap err "cannot Stat") }
              [.stat (W.join osDirname r.name), .close dh.fd]
          | .ok mode =>
            .append (cur + r.reclen) { name := r.name, modeType := mode &&& os.ModeType }
              [.stat (W.join osDirname r.name)]
      else .skip (cur + r.reclen) := by
  unfold recordAt at hr
  split at hr
  · rename_i reclen ino ty nm h1 h2 h3 h4
    cases hr
    simp only at hfit
    rw [kept_eq]
    unfold decodeStep
    simp only [h1, h2, h3, h4, hfit, if_false]
    by_cases hino : ino = 0
    · simp [hino]
    · cases hd : isDotOrDotDot nm
      · simp [hino, hd]
      · simp [hino, hd]
  · cases hr

/-- A sequence of records has at most as many records as the walk was
allowed. -/
theorem recordsFrom_length (L : DirentLayout) (mem : List Nat) (n : Nat) :
    ∀ (f cur : Nat) (recs : List RawRecord),
      recordsFrom L mem n f cur = some recs → recs.length ≤ f := by
  intro f
  induction f with
  | zero =>
    intro cur recs h
    unfold recordsFrom at h
    split at h
    · cases h; simp
    · cases h
  | succ f ih =>
    intro cur recs h
    unfold recordsFrom at h
    split at h
    · cases h; simp
    · split at h
      · cases h
      · rename_i r hr
        split at h
        · cases h
        · cases hrest : recordsFrom L mem n f (cur + r.reclen) with
          | none => rw [hrest] at h; cases h
          | some rest =>
            rw [hrest] at h
            cases h
            have := ih _ _ hrest
            simp
            omega

/-- On a span that is a sequence of records, the inner loop does what
`processRecords` does on those records, given one unit of fuel per record
and one more. -/
theorem decodeLoop_of_records (L : DirentLayout) (W : World) (osDirname : GoString)
    (dh : File) (mem : List Nat) (n : Nat) :
    ∀ (f cur : Nat) (recs : List RawRecord) (fuel : Nat) (entries : List Dirent)
      (trace : List Event),
      recordsFrom L mem n f cur = some recs → recs.length < fuel →
      decodeLoop L W osDirname dh mem n fuel cur entries trace =
        .done (processRecords W osDirname dh recs entries trace) := by
  intro f
  induction f with
  | zero =>
    intro cur recs fuel entries trace h hfuel
    unfold recordsFrom at h
    split at h
    · cases h
      obtain ⟨fuel, rfl⟩ : ∃ g, fuel = g + 1 := ⟨fuel - 1, by simp at hfuel; omega⟩
      rename_i hn
      simp [decodeLoop, hn, processRecords]
    · cases h
  | succ f ih =>
    intro cur recs fuel entries trace h hfuel
    obtain ⟨fuel, rfl⟩ : ∃ g, fuel = g + 1 := ⟨fuel - 1, by omega⟩
    unfold recordsFrom at h
    split at h
    · cases h
      rename_i hn
      simp [decodeLoop, hn, processRecords]
    · rename_i hn
      split at h
      · cases h
      · rename_i r hr
        split at h
        · cases h
        · rename_i hlen
          rw [not_or] at hlen
          cases hrest : recordsFrom L mem n f (cur + r.reclen) with
          | none => rw [hrest] at h; cases h
          | some rest =>
            rw [hrest] at h
            cases h
            have hfuel' : rest.length < fuel := by
              simp at hfuel; omega
            have hstep := decodeStep_of_record L W osDirname dh mem n cur r hr hlen.2
            unfold decodeLoop
            rw [if_neg hn, hstep]
            unfold processRecords
            by_cases hk : r.kept = true
            · rw [if_pos hk, if_pos hk]
              cases hm : inlineMode r.tag with
              | some mode =>
                simp only [List.append_nil]
                exact ih _ _ _ _ _ hrest hfuel'
              | none =>
                simp only []
                cases hs : os.Stat W (W.join osDirname r.name) with
                | error err => simp only []
                | ok mode =>
                  simp only []
                  exact ih _ _ _ _ _ hrest hfuel'
            · rw [if_neg hk, if_neg hk]
              exact ih _ _ _ _ _ hrest hfuel'

/-- When every needed metadata query succeeds, the inner loop appends the
entries of the kept records, in order, and runs off the end of the span. -/
theorem processRecords_ok (W : World) (osDirname : GoString) (dh : File) :
    ∀ (recs : List RawRecord) (entries : List Dirent) (trace : List Event),
      StatsOk W osDirname recs →
      processRecords W osDirname dh recs entries trace =
        .next (entries ++ specEntries W osDirname recs) (trace ++ statEvents W osDirname recs) := by
  intro recs
  induction recs with
  | nil => intro entries trace _; simp [processRecords, specEntries, statEvents]
  | cons r rs ih =>
    intro entries trace hok
    have hrs : StatsOk W osDirname rs := fun x hx hn => hok x (List.mem_cons_of_mem _ hx) hn
    unfold processRecords
    by_cases hk : r.kept = true
    · rw [if_pos hk]
      cases hm : inlineMode r.tag with
      | some mode =>
        simp only []
        rw [ih _ _ hrs]
        simp [specEntries, statEvents, List.filter_cons, hk, specEntry, hm, RawRecord.needsStat]
      | none =>
        have hns : r.needsStat = true := by simp [RawRecord.needsStat, hk, hm]
        obtain ⟨mode, hmode⟩ := hok r (List.mem_cons_self _ _) hns
        simp only [os.Stat, hmode]
        rw [ih _ _ hrs]
        simp [specEntries, statEvents, List.filter_cons, hk, specEntry, hm, hns, hmode]
    · rw [if_neg hk]
      rw [ih _ _ hrs]
      simp [specEntries, statEvents, List.filter_cons, hk, RawRecord.needsStat]

/-- At the first record whose metadata query fails the inner loop returns
from the function: no list, the wrapped error, and after the failed query
only the close. -/
theorem processRecords_fail (W : World) (osDirname : GoString) (dh : File)
    (r : RawRecord) (post : List RawRecord) (e : Nat)
    (hr : r.needsStat = true) (he : W.stat (W.join osDirname r.name) = .errno e) :
    ∀ (pre : List RawRecord) (entries : List Dirent) (trace : List Event),
      StatsOk W osDirname pre →
      processRecords W osDirname dh (pre ++ r :: post) entries trace =
        .ret { entries := []
               err := some (errors.Wrap (.pathError "stat" (W.join osDirname r.name) e)
                      "cannot Stat") }
          (trace ++ statEvents W osDirname pre ++
            [.stat (W.join osDirname r.name), .close dh.fd]) := by
  intro pre
  induction pre with
  | nil =>
    intro entries trace _
    simp only [RawRecord.needsStat, Bool.and_eq_true, Option.isNone_iff_eq_none] at hr
    simp [processRecords, hr.1, hr.2, os.Stat, he, statEvents]
  | cons x xs ih =>
    intro entries trace hok
    have hxs : StatsOk W osDirname xs := fun y hy hn => hok y (List.mem_cons_of_mem _ hy) hn
    simp only [List.cons_append]
    unfold processRecords
    by_cases hk : x.kept = true
    · rw [if_pos hk]
      cases hm : inlineMode x.tag with
      | some mode =>
        simp only []
        rw [ih _ _ hxs]
        simp [statEvents, List.filter_cons, hk, hm, RawRecord.needsStat]
      | none =>
        have hns : x.needsStat = true := by simp [RawRecord.needsStat, hk, hm]
        obtain ⟨mode, hmode⟩ := hok x (List.mem_cons_self _ _) hns
        simp only [os.Stat, hmode]
        rw [ih _ _ hxs]
        simp [statEvents, List.filter_cons, hns]
    · rw [if_neg hk]
      rw [ih _ _ hxs]
      simp [statEvents, List.filter_cons, hk, RawRecord.needsStat]

/-! ### The outer loop on a run of well-formed batches -/

theorem records_length_le (L : DirentLayout) (mem d : List Nat) (rs : List RawRecord)
    (h : records L mem (d.take bufsize).length = some rs) : rs.length ≤ bufsize := by
  have h1 := recordsFrom_length L mem _ _ _ _ h
  have h2 : (d.take bufsize).length ≤ bufsize := by simp [List.length_take]
  omega

/-- After a run of successful, non-empty, well-formed batches whose needed
metadata queries all succeed, the outer loop is at the next batch read with
the entries of all kept records accumulated in order. -/
theorem readLoop_batches (L : DirentLayout) (W : World) (osDirname : GoString) (dh : File) :
    ∀ (ds : List (List Nat)) (mem : List Nat) (k : Nat) (entries : List Dirent)
      (trace : List Event) (rss : List (List RawRecord)) (fuel : Nat),
      (∀ i (h : i < ds.length),
        W.getdents dh.fd (k + i) = .ok (ds.get ⟨i, h⟩) ∧ ds.get ⟨i, h⟩ ≠ []) →
      batchRecords L mem ds = some rss →
      (∀ rs ∈ rss, StatsOk W osDirname rs) →
      bufsize < fuel →
      readLoop L W osDirname dh (fuel + ds.length) mem k entries trace =
        readLoop L W osDirname dh fuel (fillAll mem ds) (k + ds.length)
          (entries ++ specEntries W osDirname rss.flatten)
          (trace ++ batchEvents W osDirname dh rss) := by
  intro ds
  induction ds with
  | nil =>
    intro mem k entries trace rss fuel _ hb _ _
    simp only [batchRecords, Option.some.injEq] at hb
    subst hb
    simp [fillAll, specEntries, batchEvents]
  | cons d ds ih =>
    intro mem k entries trace rss fuel hreads hb hok hfuel
    unfold batchRecords at hb
    split at hb
    · rename_i rs rest hrs hrest
      cases hb
      have h0 := hreads 0 (by simp)
      simp only [List.get_eq_getElem, List.getElem_cons_zero, Nat.add_zero] at h0
      obtain ⟨hget, hne⟩ := h0
      have hpos : ¬ (d.take bufsize).length ≤ 0 := by
        cases d with
        | nil => exact absurd rfl hne
        | cons a as => simp [bufsize, List.take]
      have hlen := records_length_le L _ d rs hrs
      have hdec := decodeLoop_of_records L W osDirname dh (fill d mem) (d.take bufsize).length
        _ 0 rs (fuel + ds.length) entries (trace ++ [.read dh.fd]) hrs (by omega)
      rw [processRecords_ok W osDirname dh rs _ _ (hok rs (List.mem_cons_self _ _))] at hdec
      have hreads' : ∀ i (h : i < ds.length),
          W.getdents dh.fd (k + 1 + i) = .ok (ds.get ⟨i, h⟩) ∧ ds.get ⟨i, h⟩ ≠ [] := by
        intro i h
        have := hreads (i + 1) (by simp; omega)
        simp only [List.get_eq_getElem, List.getElem_cons_succ] at this
        simp only [List.get_eq_getElem]
        rw [show k + 1 + i = k + (i + 1) by omega]
        exact this
      have hih := ih (fill d mem) (k + 1) (entries ++ specEntries W osDirname rs)
        (trace ++ [.read dh.fd] ++ statEvents W osDirname rs) rest fuel hreads' hrest
        (fun x hx => hok x (List.mem_cons_of_mem _ hx)) hfuel
      rw [show fuel + (d :: ds).length = (fuel + ds.length) + 1 by simp; omega]
      rw [readLoop]
      simp only [syscall.ReadDirent, hget, if_neg hpos, hdec]
      rw [hih]
      simp [fillAll, specEntries, batchEvents, Nat.add_assoc, Nat.add_comm 1]
    · cases hb

/-- After open and a run of good batches `readdirents` is at the next batch
read. -/
theorem readdirents_after_batches (L : DirentLayout) (W : World) (osDirname : GoString)
    (fd : Nat) (ds : List (List Nat)) (rss : List (List RawRecord)) (g : Nat)
    (hopen : W.openDir osDirname = .ok fd)
    (hreads : ∀ i (h : i < ds.length),
      W.getdents fd i = .ok (ds.get ⟨i, h⟩) ∧ ds.get ⟨i, h⟩ ≠ [])
    (hrecs : batchRecords L (List.replicate bufsize 0) ds = some rss)
    (hstat : ∀ rs ∈ rss, StatsOk W osDirname rs)
    (hg : bufsize < g) :
    readdirents L W (g + ds.length) osDirname =
      readLoop L W osDirname ⟨fd, osDirname⟩ g (fillAll (List.replicate bufsize 0) ds) ds.length
        (specEntries W osDirname rss.flatten)
        ([.open osDirname] ++ batchEvents W osDirname ⟨fd, osDirname⟩ rss) := by
  have hreads' : ∀ i (h : i < ds.length),
      W.getdents (File.mk fd osDirname).fd (0 + i) = .ok (ds.get ⟨i, h⟩) ∧
        ds.get ⟨i, h⟩ ≠ [] := by
    intro i h
    simpa using hreads i h
  have hb := readLoop_batches L W osDirname ⟨fd, osDirname⟩ ds (List.replicate bufsize 0) 0 []
    [.open osDirname] rss g hreads' hrecs hstat hg
  unfold readdirents
  simp only [os.Open, hopen]
  rw [hb]
  simp

/-! ### Successful runs -/

/-- C1: when open succeeds, every batch read succeeds with a non-empty batch
until one returns zero bytes, every batch is a sequence of records, every
needed metadata query succeeds and close succeeds, `readdirents` returns
(given enough fuel) no error and exactly the list obtained from all records
of all batches in the order the OS returned them, by dropping the records
with identifier zero or name "." or ".." and making one entry of each
remaining record; so there are exactly as many entries as kept records. -/
theorem readdirents_returns_kept_records (L : DirentLayout) (W : World)
    (osDirname : GoString) (fd : Nat) (ds : List (List Nat)) (rss : List (List RawRecord))
    (fuel : Nat)
    (hopen : W.openDir osDirname = .ok fd)
    (hreads : ∀ i (h : i < ds.length),
      W.getdents fd i = .ok (ds.get ⟨i, h⟩) ∧ ds.get ⟨i, h⟩ ≠ [])
    (hend : W.getdents fd ds.length = .ok [])
    (hrecs : batchRecords L (List.replicate bufsize 0) ds = some rss)
    (hstat : ∀ rs ∈ rss, StatsOk W osDirname rs)
    (hclose : W.close fd = none)
    (hfuel : bufsize + ds.length + 1 < fuel) :
    (∃ trace, readdirents L W fuel osDirname =
      .done ({ entries := (rss.flatten.filter RawRecord.kept).map (specEntry W osDirname)
               err := none }, trace)) ∧
    ((rss.flatten.filter RawRecord.kept).map (specEntry W osDirname)).length =
      (rss.flatten.filter RawRecord.kept).length ∧
    ((rss.flatten.filter RawRecord.kept).map (specEntry W osDirname)).map (·.name) =
      (rss.flatten.filter RawRecord.kept).map (·.name) := by
  refine ⟨?_, by rw [List.length_map], by simp only [List.map_map]; rfl⟩
  obtain ⟨g, rfl⟩ : ∃ g, fuel = (g + 1) + ds.length := ⟨fuel - ds.length - 1, by omega⟩
  have hreads' : ∀ i (h : i < ds.length),
      W.getdents (File.mk fd osDirname).fd (0 + i) = .ok (ds.get ⟨i, h⟩) ∧
        ds.get ⟨i, h⟩ ≠ [] := by
    intro i h
    simpa using hreads i h
  have hb := readLoop_batches L W osDirname ⟨fd, osDirname⟩ ds (List.replicate bufsize 0) 0 []
    [.open osDirname] rss (g + 1) hreads' hrecs hstat (by omega)
  refine ⟨[.open osDirname] ++ batchEvents W osDirname ⟨fd, osDirname⟩ rss ++
    [.read fd, .close fd], ?_⟩
  unfold readdirents
  simp only [os.Open, hopen]
  rw [hb, readLoop]
  simp [syscall.ReadDirent, hend, File.Close, hclose, specEntries]

set_option maxRecDepth 8000 in
theorem readdirents_returns_kept_records_witness :
    (∃ trace, readdirents linuxAmd64 exWorld (bufsize + 3) exDir =
      .done ({ entries := ([exRecords].flatten.filter RawRecord.kept).map
                 (specEntry exWorld exDir)
               err := none }, trace)) ∧
    (([exRecords].flatten.filter RawRecord.kept).map (specEntry exWorld exDir)).length =
      ([exRecords].flatten.filter RawRecord.kept).length ∧
    (([exRecords].flatten.filter RawRecord.kept).map (specEntry exWorld exDir)).map (·.name) =
      ([exRecords].flatten.filter RawRecord.kept).map (·.name) :=
  readdirents_returns_kept_records linuxAmd64 exWorld exDir 3 [exBatch] [exRecords]
    (bufsize + 3) rfl
    (fun i h => by
      have hi : i = 0 := by simpa using h
      subst hi
      exact ⟨rfl, show exBatch ≠ [] by decide⟩)
    rfl (by decide) (fun _ _ _ _ _ => ⟨_, rfl⟩) rfl (by decide)

/-! ### Invariants of the two loops -/

theorem land_ModeType_idem (mode : Nat) :
    (mode &&& os.ModeType) &&& os.ModeType = mode &&& os.ModeType := by
  rw [Nat.and_assoc, Nat.and_self]

/-- An entry that the inner loop appends is not named "." or ".." and its
type has no bit outside `os.ModeType`; at most one metadata query was made. -/
theorem decodeStep_append (L : DirentLayout) (W : World) (osDirname : GoString) (dh : File)
    (mem : List Nat) (n cur cur' : Nat) (d : Dirent) (evs : List Event)
    (h : decodeStep L W osDirname dh mem n cur = .append cur' d evs) :
    isDotOrDotDot d.name = false ∧ d.modeType &&& os.ModeType = d.modeType ∧
      (evs = [] ∨ evs = [.stat (W.join osDirname d.name)]) := by
  unfold decodeStep at h
  split at h
  · cases h
  split at h
  · cases h
  split at h
  · cases h
  split at h
  · cases h
  split at h
  · cases h
  rename_i nameBytes _
  split at h
  · cases h
  rename_i hdot
  split at h
  · cases h
  split at h
  · simp only [Step.append.injEq] at h
    obtain ⟨_, rfl, rfl⟩ := h
    simp [land_ModeType_idem, hdot]
  · dsimp only at h
    split at h
    · cases h
    · simp only [Step.append.injEq] at h
      obtain ⟨_, rfl, rfl⟩ := h
      simp [land_ModeType_idem, hdot]

/-- When the inner loop returns from the function it returns no list and a
wrapped metadata-query error, and the last two calls are that query and the
close. -/
theorem decodeStep_ret (L : DirentLayout) (W : World) (osDirname : GoString) (dh : File)
    (mem : List Nat) (n cur : Nat) (r : Ret) (evs : List Event)
    (h : decodeStep L W osDirname dh mem n cur = .ret r evs) :
    ∃ path e, W.stat path = .errno e ∧
      r = { entries := [], err := some (errors.Wrap (.pathError "stat" path e) "cannot Stat") } ∧
      evs = [.stat path, .close dh.fd] := by
  unfold decodeStep at h
  split at h
  · cases h
  split at h
  · cases h
  split at h
  · cases h
  split at h
  · cases h
  split at h
  · cases h
  rename_i nameBytes _
  split at h
  · cases h
  split at h
  · cases h
  split at h
  · cases h
  · dsimp only at h
    split at h
    · rename_i err hs
      simp only [Step.ret.injEq] at h
      obtain ⟨rfl, rfl⟩ := h
      unfold os.Stat at hs
      split at hs
      · cases hs
      · rename_i e he
        cases hs
        exact ⟨_, e, he, rfl, rfl⟩
    · cases h

/-- The inner loop keeps every accumulated entry good, and when it returns
from the function it returns no list and an error. -/
theorem decodeLoop_inv (L : DirentLayout) (W : World) (osDirname : GoString) (dh : File)
    (mem : List Nat) (n : Nat) :
    ∀ (fuel cur : Nat) (entries : List Dirent) (trace : List Event) (fl : Flow),
      (∀ e ∈ entries, GoodEntry e) →
      decodeLoop L W osDirname dh mem n fuel cur entries trace = .done fl →
      match fl with
      | .next entries' _ => ∀ e ∈ entries', GoodEntry e
      | .ret r _ => r.entries = [] ∧ r.err ≠ none := by
  intro fuel
  induction fuel with
  | zero => intro cur entries trace fl _ h; simp [decodeLoop] at h
  | succ fuel ih =>
    intro cur entries trace fl hgood h
    rw [decodeLoop] at h
    split at h
    · cases h
      exact hgood
    · split at h
      · exact ih _ _ _ _ hgood h
      · rename_i cur' d evs hstep
        have hd := decodeStep_append L W osDirname dh mem n cur cur' d evs hstep
        refine ih _ _ _ _ ?_ h
        intro e he
        rcases List.mem_append.mp he with he | he
        · exact hgood e he
        · rw [List.mem_singleton] at he
          subst he
          exact ⟨hd.1, hd.2.1⟩
      · rename_i r evs hstep
        obtain ⟨path, e, _, rfl, _⟩ := decodeStep_ret L W osDirname dh mem n cur r evs hstep
        cases h
        simp
      · cases h
      · cases h

/-- Every list that the outer loop returns holds only good entries, and is
empty whenever the returned error is not nil. -/
theorem readLoop_inv (L : DirentLayout) (W : World) (osDirname : GoString) (dh : File) :
    ∀ (fuel : Nat) (mem : List Nat) (k : Nat) (entries : List Dirent) (trace : List Event)
      (r : Ret) (trace' : List Event),
      (∀ e ∈ entries, GoodEntry e) →
      readLoop L W osDirname dh fuel mem k entries trace = .done (r, trace') →
      (∀ e ∈ r.entries, GoodEntry e) ∧ (r.err ≠ none → r.entries = []) := by
  intro fuel
  induction fuel with
  | zero => intro mem k entries trace r trace' _ h; simp [readLoop] at h
  | succ fuel ih =>
    intro mem k entries trace r trace' hgood h
    rw [readLoop] at h
    split at h
    · cases h
      simp
    · rename_i n mem' hread
      split at h
      · split at h
        · cases h
          simp
        · cases h
          exact ⟨hgood, fun hne => absurd rfl hne⟩
      · split at h
        · rename_i entries' tr' hdec
          have := decodeLoop_inv L W osDirname dh mem' n fuel 0 entries _ _ hgood hdec
          exact ih _ _ _ _ _ _ this h
        · rename_i r' tr' hdec
          have := decodeLoop_inv L W osDirname dh mem' n fuel 0 entries _ _ hgood hdec
          cases h
          simp only at this
          simp [this.1]
        · cases h
        · cases h
        · cases h

theorem readdirents_inv (L : DirentLayout) (W : World) (fuel : Nat) (osDirname : GoString)
    (r : Ret) (trace : List Event)
    (h : readdirents L W fuel osDirname = .done (r, trace)) :
    (∀ e ∈ r.entries, GoodEntry e) ∧ (r.err ≠ none → r.entries = []) := by
  unfold readdirents at h
  split at h
  · cases h
    simp
  · exact readLoop_inv L W osDirname _ fuel _ 0 [] _ r trace (by simp) h

/-! ### readdirnames, and what every returned list satisfies -/

/-- C2: whenever `readdirents` returns, `readdirnames` returns after the
same calls with the same error; without an error its names are exactly the
name fields of the entries of `readdirents`, same length and same order, and
with an error it returns that error and no names.  Conversely `readdirnames`
returns only when `readdirents` does, with the same error. -/
theorem readdirnames_projects_readdirents (L : DirentLayout) (W : World) (fuel : Nat)
    (osDirname : GoString) :
    (∀ r trace, readdirents L W fuel osDirname = .done (r, trace) →
      ∃ nr, readdirnames L W fuel osDirname = .done (nr, trace) ∧ nr.err = r.err ∧
        (r.err = none →
          nr.names = r.entries.map (·.name) ∧ nr.names.length = r.entries.length) ∧
        (r.err ≠ none → nr.names = [])) ∧
    (∀ nr trace, readdirnames L W fuel osDirname = .done (nr, trace) →
      ∃ r, readdirents L W fuel osDirname = .done (r, trace) ∧ nr.err = r.err) := by
  constructor
  · intro r trace h
    unfold readdirnames
    rw [h]
    dsimp only
    cases he : r.err with
    | none =>
      exact ⟨⟨r.entries.map (·.name), none⟩, rfl, rfl,
        fun _ => ⟨rfl, List.length_map _ _⟩, fun hne => absurd rfl hne⟩
    | some err => exact ⟨⟨[], some err⟩, rfl, rfl, fun hn => (by cases hn), fun _ => rfl⟩
  · intro nr trace h
    unfold readdirnames at h
    split at h
    · rename_i r tr hr
      split at h
      · rename_i err he
        cases h
        exact ⟨r, hr, he.symm⟩
      · rename_i he
        cases h
        exact ⟨r, hr, he.symm⟩
    · cases h
    · cases h
    · cases h

set_option maxRecDepth 8000 in
theorem readdirnames_projects_readdirents_witness :
    readdirents linuxAmd64 exWorld 10 exDir =
        .done ({ entries := [⟨[97], 0⟩, ⟨[99], os.ModeDir⟩], err := none },
          [.open exDir, .read 3, .stat [47, 100, 47, 99], .read 3, .close 3]) ∧
      readdirnames linuxAmd64 exWorld 10 exDir =
        .done ({ names := [[97], [99]], err := none },
          [.open exDir, .read 3, .stat [47, 100, 47, 99], .read 3, .close 3]) := by
  have h : readdirents linuxAmd64 exWorld 10 exDir =
      .done ({ entries := [⟨[97], 0⟩, ⟨[99], os.ModeDir⟩], err := none },
        [.open exDir, .read 3, .stat [47, 100, 47, 99], .read 3, .close 3]) := by decide
  obtain ⟨nr, h1, h2, h3, _⟩ :=
    (readdirnames_projects_readdirents linuxAmd64 exWorld 10 exDir).1 _ _ h
  refine ⟨h, ?_⟩
  rw [h1]
  have hn := (h3 rfl).1
  cases nr
  simp only at h2 hn
  subst h2 hn
  rfl

/-- C3: no entry of a list returned by `readdirents` is named "." or "..",
whatever the record stream. -/
theorem readdirents_never_lists_dot_or_dotdot (L : DirentLayout) (W : World) (fuel : Nat)
    (osDirname : GoString) (r : Ret) (trace : List Event)
    (h : readdirents L W fuel osDirname = .done (r, trace)) :
    ∀ e ∈ r.entries, e.name ≠ [46] ∧ e.name ≠ [46, 46] := by
  intro e he
  have hg := ((readdirents_inv L W fuel osDirname r trace h).1 e he).1
  have hiff := isDotOrDotDot_iff e.name
  rw [hg] at hiff
  constructor
  · intro h1
    exact absurd (hiff.mpr (Or.inl h1)) (by simp)
  · intro h2
    exact absurd (hiff.mpr (Or.inr h2)) (by simp)

set_option maxRecDepth 8000 in
theorem readdirents_never_lists_dot_or_dotdot_witness :
    readdirents linuxAmd64 exWorldDots 10 exDir =
        .done ({ entries := [⟨[97], 0⟩, ⟨[98], os.ModeSymlink⟩], err := none },
          [.open exDir, .read 3, .read 3, .read 3, .close 3]) ∧
      ∀ e ∈ [(⟨[97], 0⟩ : Dirent), ⟨[98], os.ModeSymlink⟩], e.name ≠ [46] ∧ e.name ≠ [46, 46] :=
  ⟨by decide,
    readdirents_never_lists_dot_or_dotdot linuxAmd64 exWorldDots 10 exDir
      { entries := [⟨[97], 0⟩, ⟨[98], os.ModeSymlink⟩], err := none }
      [.open exDir, .read 3, .read 3, .read 3, .close 3] (by decide)⟩

/-- C10: neither function returns a partial listing: when the error that
`readdirents` returns is not nil its list is nil, and so is the list of names
that `readdirnames` returns with that error, however many entries had been
accumulated. -/
theorem no_partial_listing (L : DirentLayout) (W : World) (fuel : Nat)
    (osDirname : GoString) (r : Ret) (nr : NamesRet) (trace trace' : List Event)
    (h : readdirents L W fuel osDirname = .done (r, trace))
    (hn : readdirnames L W fuel osDirname = .done (nr, trace'))
    (herr : r.err ≠ none) :
    r.entries = [] ∧ nr.err = r.err ∧ nr.names = [] := by
  refine ⟨(readdirents_inv L W fuel osDirname r trace h).2 herr, ?_⟩
  unfold readdirnames at hn
  rw [h] at hn
  cases he : r.err with
  | none => exact absurd he herr
  | some err =>
    simp only [he] at hn
    cases hn
    exact ⟨rfl, rfl⟩

set_option maxRecDepth 8000 in
theorem no_partial_listing_witness :
    readdirents linuxAmd64 exWorldCloseFails 10 exDir =
        .done ({ entries := [], err := some (.pathError "close" exDir 5) },
          [.open exDir, .read 3, .stat [47, 100, 47, 99], .read 3, .close 3]) ∧
      ((⟨[], some (.pathError "close" exDir 5)⟩ : Ret).entries = [] ∧
        (⟨[], some (.pathError "close" exDir 5)⟩ : NamesRet).err =
          (⟨[], some (.pathError "close" exDir 5)⟩ : Ret).err ∧
        (⟨[], some (.pathError "close" exDir 5)⟩ : NamesRet).names = []) :=
  ⟨by decide,
    no_partial_listing linuxAmd64 exWorldCloseFails 10 exDir _ _ _ _
      (show readdirents linuxAmd64 exWorldCloseFails 10 exDir =
        .done ({ entries := [], err := some (.pathError "close" exDir 5) },
          [.open exDir, .read 3, .stat [47, 100, 47, 99], .read 3, .close 3]) by decide)
      (show readdirnames linuxAmd64 exWorldCloseFails 10 exDir =
        .done ({ names := [], err := some (.pathError "close" exDir 5) },
          [.open exDir, .read 3, .stat [47, 100, 47, 99], .read 3, .close 3]) by decide)
      (by decide)⟩

/-! ### The inner loop reads only from its cursor on -/

theorem get?_of_drop_eq (mem mem' : List Nat) (c : Nat) (h : mem.drop c = mem'.drop c) :
    ∀ i, c ≤ i → mem.get? i = mem'.get? i := by
  intro i hi
  obtain ⟨x, rfl⟩ : ∃ x, i = c + x := ⟨i - c, by omega⟩
  have h1 : (mem.drop c).get? x = mem.get? (c + x) := by simp [List.getElem?_drop]
  have h2 : (mem'.drop c).get? x = mem'.get? (c + x) := by simp [List.getElem?_drop]
  rw [← h1, ← h2, h]

theorem drop_eq_of_get? (mem mem' : List Nat) (c : Nat)
    (h : ∀ i, c ≤ i → mem.get? i = mem'.get? i) : mem.drop c = mem'.drop c := by
  apply List.ext_get?
  intro x
  have := h (c + x) (by omega)
  simpa [List.getElem?_drop] using this

theorem byteAt_congr (mem mem' : List Nat) (c : Nat)
    (h : ∀ i, c ≤ i → mem.get? i = mem'.get? i) (i : Nat) (hi : c ≤ i) :
    byteAt mem i = byteAt mem' i := by
  unfold byteAt
  rw [h i hi]

theorem readLE_congr (mem mem' : List Nat) (c : Nat)
    (h : ∀ i, c ≤ i → mem.get? i = mem'.get? i) :
    ∀ (size off : Nat), c ≤ off → readLE mem off size = readLE mem' off size := by
  intro size
  induction size with
  | zero => intro off _; rfl
  | succ size ih =>
    intro off hoff
    unfold readLE
    rw [byteAt_congr mem mem' c h off hoff, ih (off + 1) (by omega)]

theorem indexNul_congr (mem mem' : List Nat) (c : Nat)
    (h : ∀ i, c ≤ i → mem.get? i = mem'.get? i) (start : Nat) (hs : c ≤ start) :
    ∀ (remaining i : Nat), indexNul mem start remaining i = indexNul mem' start remaining i := by
  intro remaining
  induction remaining with
  | zero => intro i; rfl
  | succ remaining ih =>
    intro i
    unfold indexNul
    rw [byteAt_congr mem mem' c h (start + i) (by omega), ih (i + 1)]

theorem extractName_congr (L : DirentLayout) (mem mem' : List Nat) (c : Nat)
    (h : ∀ i, c ≤ i → mem.get? i = mem'.get? i) (cur : Nat) (hc : c ≤ cur) :
    extractName L mem cur = extractName L mem' cur := by
  unfold extractName
  rw [indexNul_congr mem mem' c h (cur + L.nameOff) (by omega)]
  have hd : mem.drop (cur + L.nameOff) = mem'.drop (cur + L.nameOff) :=
    drop_eq_of_get? mem mem' _ (fun i hi => h i (by omega))
  rw [hd]

/-- One iteration of the inner loop at `cur` depends only on the bytes of
the scratch buffer from `cur` on. -/
theorem decodeStep_congr (L : DirentLayout) (W : World) (osDirname : GoString) (dh : File)
    (mem mem' : List Nat) (n c cur : Nat)
    (h : ∀ i, c ≤ i → mem.get? i = mem'.get? i) (hc : c ≤ cur) :
    decodeStep L W osDirname dh mem n cur = decodeStep L W osDirname dh mem' n cur := by
  unfold decodeStep
  rw [readLE_congr mem mem' c h _ _ (show c ≤ cur + L.reclenOff by omega),
    readLE_congr mem mem' c h _ _ (show c ≤ cur + L.inoOff by omega),
    extractName_congr L mem mem' c h cur hc,
    byteAt_congr mem mem' c h _ (show c ≤ cur + L.typeOff by omega)]

/-- The cursor never moves backwards. -/
theorem decodeStep_cursor (L : DirentLayout) (W : World) (osDirname : GoString) (dh : File)
    (mem : List Nat) (n cur : Nat) :
    (∀ cur', decodeStep L W osDirname dh mem n cur = .skip cur' → cur ≤ cur') ∧
    (∀ cur' d evs, decodeStep L W osDirname dh mem n cur = .append cur' d evs → cur ≤ cur') := by
  constructor
  · intro cur' h
    unfold decodeStep at h
    repeat' split at h
    all_goals first
      | (simp only [Step.skip.injEq] at h; omega)
      | cases h
      | (dsimp only at h; split at h <;> cases h)
  · intro cur' d evs h
    unfold decodeStep at h
    repeat' split at h
    all_goals first
      | (simp only [Step.append.injEq] at h; omega)
      | cases h
      | (dsimp only at h
         split at h
         · cases h
         · simp only [Step.append.injEq] at h; omega)

/-- The inner loop from cursor `cur` depends only on the bytes of the scratch
buffer from `cur` on. -/
theorem decodeLoop_congr (L : DirentLayout) (W : World) (osDirname : GoString) (dh : File)
    (mem mem' : List Nat) (n c : Nat)
    (h : ∀ i, c ≤ i → mem.get? i = mem'.get? i) :
    ∀ (fuel cur : Nat) (entries : List Dirent) (trace : List Event), c ≤ cur →
      decodeLoop L W osDirname dh mem n fuel cur entries trace =
        decodeLoop L W osDirname dh mem' n fuel cur entries trace := by
  intro fuel
  induction fuel with
  | zero => intro cur entries trace _; rfl
  | succ fuel ih =>
    intro cur entries trace hc
    rw [decodeLoop, decodeLoop]
    rw [← decodeStep_congr L W osDirname dh mem mem' n c cur h hc]
    have hcur := decodeStep_cursor L W osDirname dh mem n cur
    split
    · rfl
    · split
      · rename_i cur' hs
        exact ih _ _ _ (by have := hcur.1 cur' hs; omega)
      · rename_i cur' d evs hs
        exact ih _ _ _ (by have := hcur.2 cur' d evs hs; omega)
      · rfl
      · rfl
      · rfl

/-! ### Removed slots -/

/-- In a run that ends well (as in C1), a record with identifier zero leaves
no trace in the returned list: the list is made from the records before it
and the records after it, whatever its name and tag. -/
theorem removed_slot_not_listed (L : DirentLayout) (W : World)
    (osDirname : GoString) (fd : Nat) (ds : List (List Nat)) (rss : List (List RawRecord))
    (pre post : List RawRecord) (r : RawRecord) (fuel : Nat)
    (hopen : W.openDir osDirname = .ok fd)
    (hreads : ∀ i (h : i < ds.length),
      W.getdents fd i = .ok (ds.get ⟨i, h⟩) ∧ ds.get ⟨i, h⟩ ≠ [])
    (hend : W.getdents fd ds.length = .ok [])
    (hrecs : batchRecords L (List.replicate bufsize 0) ds = some rss)
    (hstat : ∀ rs ∈ rss, StatsOk W osDirname rs)
    (hclose : W.close fd = none)
    (hfuel : bufsize + ds.length + 1 < fuel)
    (hsplit : rss.flatten = pre ++ r :: post) (hr : r.ino = 0) :
    ∃ trace, readdirents L W fuel osDirname =
      .done ({ entries := specEntries W osDirname pre ++ specEntries W osDirname post
               err := none }, trace) := by
  obtain ⟨g, rfl⟩ : ∃ g, fuel = (g + 1) + ds.length := ⟨fuel - ds.length - 1, by omega⟩
  rw [readdirents_after_batches L W osDirname fd ds rss (g + 1) hopen hreads hrecs hstat
    (by omega)]
  refine ⟨[.open osDirname] ++ batchEvents W osDirname ⟨fd, osDirname⟩ rss ++
    [.read fd, .close fd], ?_⟩
  have hk : r.kept = false := by simp [RawRecord.kept, hr]
  rw [readLoop]
  simp [syscall.ReadDirent, hend, File.Close, hclose, specEntries, hsplit, List.filter_cons, hk]


/-! ### Type resolution -/

/-- The switch sets `mode` without a query for exactly seven tags. -/
theorem inlineMode_some (t m : Nat) (h : inlineMode t = some m) :
    (t = syscall.DT_REG ∧ m = 0) ∨ (t = syscall.DT_DIR ∧ m = os.ModeDir) ∨
    (t = syscall.DT_LNK ∧ m = os.ModeSymlink) ∨ (t = syscall.DT_BLK ∧ m = os.ModeDevice) ∨
    (t = syscall.DT_CHR ∧ m = (os.ModeDevice ||| os.ModeCharDevice)) ∨
    (t = syscall.DT_FIFO ∧ m = os.ModeNamedPipe) ∨ (t = syscall.DT_SOCK ∧ m = os.ModeSocket) := by
  unfold inlineMode at h
  split at h
  · cases h; simp [*]
  split at h
  · cases h; simp [*]
  split at h
  · cases h; simp [*]
  split at h
  · cases h; simp [*]
  split at h
  · cases h; simp [*]
  split at h
  · cases h; simp [*]
  split at h
  · cases h; simp [*]
  · cases h

/-- C5: for a live record that is not "." or ".." and whose inline tag is one
of the seven known tags, the inner loop appends an entry whose type is the
one the direct table gives for the tag, and makes no call to the operating
system for it; and two different known tags give different types after the
masking to `os.ModeType`. -/
theorem inline_tag_resolved_by_table (L : DirentLayout) (W : World) (osDirname : GoString)
    (dh : File) (mem : List Nat) (n cur : Nat) (r : RawRecord) (tt : TypeTag)
    (hr : recordAt L mem cur = some r) (hfit : r.reclen ≤ n - cur)
    (hkept : r.kept = true) (htag : specTagTable r.tag = some tt) :
    (∃ mt, decodeStep L W osDirname dh mem n cur =
        .append (cur + r.reclen) { name := r.name, modeType := mt } [] ∧
      typeTagOf mt = tt ∧ mt &&& os.ModeType = mt) ∧
    (∀ t1 t2 m1 m2, inlineMode t1 = some m1 → inlineMode t2 = some m2 → t1 ≠ t2 →
      m1 &&& os.ModeType ≠ m2 &&& os.ModeType) := by
  constructor
  · rw [decodeStep_of_record L W osDirname dh mem n cur r hr (Nat.not_lt.mpr hfit), if_pos hkept]
    unfold specTagTable at htag
    repeat' split at htag
    all_goals first
      | (rename_i ht
         cases htag
         rw [ht]
         exact ⟨_, rfl, by decide, by decide⟩)
      | cases htag
  · intro t1 t2 m1 m2 h1 h2 hne
    rcases inlineMode_some t1 m1 h1 with h | h | h | h | h | h | h <;>
    rcases inlineMode_some t2 m2 h2 with h' | h' | h' | h' | h' | h' | h' <;>
    obtain ⟨rfl, rfl⟩ := h <;> obtain ⟨rfl, rfl⟩ := h' <;>
    first
      | exact absurd rfl hne
      | decide

theorem inline_tag_resolved_by_table_witness :
    (∃ mt, decodeStep linuxAmd64 exWorld exDir ⟨3, exDir⟩ exBatch 120 48 =
        .append (48 + 24) { name := [97], modeType := mt } [] ∧
      typeTagOf mt = .Regular ∧ mt &&& os.ModeType = mt) ∧
    (∀ t1 t2 m1 m2, inlineMode t1 = some m1 → inlineMode t2 = some m2 → t1 ≠ t2 →
      m1 &&& os.ModeType ≠ m2 &&& os.ModeType) :=
  inline_tag_resolved_by_table linuxAmd64 exWorld exDir ⟨3, exDir⟩ exBatch 120 48
    { ino := 5, reclen := 24, tag := 8, name := [97] } .Regular
    (by decide) (by decide) (by decide) (by decide)

/-- For a kept record whose tag is none of the seven known tags, the inner
loop queries the metadata of the joined path with `os.Stat` and, when the query
succeeds, appends an entry whose type is the masked mode it answered. -/
theorem unknown_tag_resolved_by_stat (L : DirentLayout) (W : World) (osDirname : GoString)
    (dh : File) (mem : List Nat) (n cur : Nat) (r : RawRecord) (mode : Nat)
    (hr : recordAt L mem cur = some r) (hfit : r.reclen ≤ n - cur)
    (hneeds : r.needsStat = true)
    (hstat : W.stat (W.join osDirname r.name) = .ok mode) :
    decodeStep L W osDirname dh mem n cur =
      .append (cur + r.reclen) { name := r.name, modeType := mode &&& os.ModeType }
        [.stat (W.join osDirname r.name)] := by
  simp only [RawRecord.needsStat, Bool.and_eq_true, Option.isNone_iff_eq_none] at hneeds
  rw [decodeStep_of_record L W osDirname dh mem n cur r hr (Nat.not_lt.mpr hfit),
    if_pos hneeds.1, hneeds.2]
  simp [os.Stat, hstat]

set_option maxRecDepth 8000 in
/-- C6 (what the code does): the entry "c" has tag `DT_UNKNOWN` and is a
symbolic link to a directory; `readdirents` queries "/d/c" with `os.Stat`,
which follows the link, and returns "c" with type Directory, not Symlink.
When the link dangles, the whole call fails. -/
theorem stat_fallback_follows_symlinks :
    exWorldSymlink.lstat (exWorldSymlink.join exDir [99]) = .ok (os.ModeSymlink ||| 0o777) ∧
    typeTagOf (os.ModeSymlink ||| 0o777) = .Symlink ∧
    readdirents linuxAmd64 exWorldSymlink 10 exDir =
      .done ({ entries := [⟨[97], 0⟩, ⟨[99], os.ModeDir⟩], err := none },
        [.open exDir, .read 3, .stat [47, 100, 47, 99], .read 3, .close 3]) ∧
    typeTagOf os.ModeDir = .Directory ∧
    readdirents linuxAmd64 exWorldDangling 10 exDir =
      .done ({ entries := []
               err := some (.wrap (.pathError "stat" [47, 100, 47, 99] 2) "cannot Stat") },
        [.open exDir, .read 3, .stat [47, 100, 47, 99], .close 3]) := by
  refine ⟨rfl, by decide, by decide, by decide, by decide⟩

/-! ### Only the node-type bits of a mode matter -/

theorem nonTypeBits_land_ModeType (b : Nat) (hb : b &&& nonTypeBits = b) :
    b &&& os.ModeType = 0 := by
  have h0 : nonTypeBits &&& os.ModeType = 0 := by decide
  rw [← hb, Nat.and_assoc, h0, Nat.and_zero]

theorem stat_branch_sameType (W : World) (stat' : GoString → Sys Nat)
    (h : ∀ p, SameType (W.stat p) (stat' p)) (dh : File) (path nameBytes : GoString)
    (cur' : Nat) :
    (match os.Stat { W with stat := stat' } path with
      | .error err =>
        Step.ret { entries := [], err := some (errors.Wrap err "cannot Stat") }
          [.stat path, .close dh.fd]
      | .ok mode =>
        Step.append cur' { name := nameBytes, modeType := mode &&& os.ModeType } [.stat path]) =
    (match os.Stat W path with
      | .error err =>
        Step.ret { entries := [], err := some (errors.Wrap err "cannot Stat") }
          [.stat path, .close dh.fd]
      | .ok mode =>
        Step.append cur' { name := nameBytes, modeType := mode &&& os.ModeType } [.stat path]) := by
  have hp := h path
  unfold SameType at hp
  unfold os.Stat
  cases h1 : W.stat path with
  | ok m1 =>
    cases h2 : stat' path with
    | ok m2 => rw [h1, h2] at hp; simp only [h2]; simp only at hp; rw [hp]
    | errno e2 => rw [h1, h2] at hp; exact absurd hp (by simp)
  | errno e1 =>
    cases h2 : stat' path with
    | ok m2 => rw [h1, h2] at hp; exact absurd hp (by simp)
    | errno e2 => rw [h1, h2] at hp; simp only [h2]; simp only at hp; rw [hp]

theorem decodeStep_sameType (L : DirentLayout) (W : World) (stat' : GoString → Sys Nat)
    (h : ∀ p, SameType (W.stat p) (stat' p)) (osDirname : GoString) (dh : File)
    (mem : List Nat) (n cur : Nat) :
    decodeStep L { W with stat := stat' } osDirname dh mem n cur =
      decodeStep L W osDirname dh mem n cur := by
  unfold decodeStep
  cases readLE mem (cur + L.reclenOff) L.reclenSize with
  | none => rfl
  | some reclen =>
    dsimp only
    split
    · rfl
    · cases readLE mem (cur + L.inoOff) L.inoSize with
      | none => rfl
      | some ino =>
        dsimp only
        split
        · rfl
        · cases extractName L mem cur with
          | none => rfl
          | some nameBytes =>
            dsimp only
            split
            · rfl
            · cases byteAt mem (cur + L.typeOff) with
              | none => rfl
              | some ty =>
                dsimp only
                cases inlineMode ty with
                | some mode => rfl
                | none =>
                  dsimp only
                  exact stat_branch_sameType W stat' h dh _ nameBytes _

theorem decodeLoop_sameType (L : DirentLayout) (W : World) (stat' : GoString → Sys Nat)
    (h : ∀ p, SameType (W.stat p) (stat' p)) (osDirname : GoString) (dh : File)
    (mem : List Nat) (n : Nat) :
    ∀ (fuel cur : Nat) (entries : List Dirent) (trace : List Event),
      decodeLoop L { W with stat := stat' } osDirname dh mem n fuel cur entries trace =
        decodeLoop L W osDirname dh mem n fuel cur entries trace := by
  intro fuel
  induction fuel with
  | zero => intro cur entries trace; rfl
  | succ fuel ih =>
    intro cur entries trace
    rw [decodeLoop, decodeLoop, decodeStep_sameType L W stat' h]
    split
    · rfl
    · split
      · exact ih _ _ _
      · exact ih _ _ _
      · rfl
      · rfl
      · rfl

theorem readLoop_sameType (L : DirentLayout) (W : World) (stat' : GoString → Sys Nat)
    (h : ∀ p, SameType (W.stat p) (stat' p)) (osDirname : GoString) (dh : File) :
    ∀ (fuel : Nat) (mem : List Nat) (k : Nat) (entries : List Dirent) (trace : List Event),
      readLoop L { W with stat := stat' } osDirname dh fuel mem k entries trace =
        readLoop L W osDirname dh fuel mem k entries trace := by
  intro fuel
  induction fuel with
  | zero => intro mem k entries trace; rfl
  | succ fuel ih =>
    intro mem k entries trace
    rw [readLoop, readLoop]
    have hrd : syscall.ReadDirent { W with stat := stat' } dh.fd k mem =
        syscall.ReadDirent W dh.fd k mem := rfl
    have hcl : File.Close { W with stat := stat' } dh = File.Close W dh := rfl
    rw [hrd, hcl]
    split
    · rfl
    · split
      · rfl
      · rw [decodeLoop_sameType L W stat' h]
        split
        · exact ih _ _ _ _
        · rfl
        · rfl
        · rfl
        · rfl

/-- C7: the type that `readdirents` gives an entry ignores every bit of the
queried mode outside the node-type mask: if the metadata queries of two
worlds answer modes with the same type bits (or the same errno), and the
worlds are otherwise the same, `readdirents` does the same in both; every
returned entry has a type with no bit outside `os.ModeType`; and adding
permission, setuid, setgid, sticky, append, exclusive or temporary bits to a
mode leaves its type bits unchanged. -/
theorem type_resolution_ignores_non_type_bits (L : DirentLayout) (W : World)
    (stat' : GoString → Sys Nat) (fuel : Nat) (osDirname : GoString)
    (h : ∀ p, SameType (W.stat p) (stat' p)) :
    readdirents L { W with stat := stat' } fuel osDirname = readdirents L W fuel osDirname ∧
    (∀ r trace, readdirents L W fuel osDirname = .done (r, trace) →
      ∀ e ∈ r.entries, e.modeType &&& os.ModeType = e.modeType) ∧
    (∀ mode b, b &&& nonTypeBits = b →
      (mode ||| b) &&& os.ModeType = mode &&& os.ModeType) := by
  refine ⟨?_, ?_, ?_⟩
  · unfold readdirents
    have ho : os.Open { W with stat := stat' } osDirname = os.Open W osDirname := rfl
    rw [ho]
    split
    · rfl
    · exact readLoop_sameType L W stat' h osDirname _ fuel _ _ _ _
  · intro r trace hr e he
    exact ((readdirents_inv L W fuel osDirname r trace hr).1 e he).2
  · intro mode b hb
    rw [Nat.land_comm, Nat.and_or_distrib_left, Nat.land_comm _ b,
      nonTypeBits_land_ModeType b hb, Nat.or_zero, Nat.land_comm]

set_option maxRecDepth 8000 in
theorem type_resolution_ignores_non_type_bits_witness :
    readdirents linuxAmd64
        { exWorld with stat := fun _ => .ok (os.ModeDir ||| os.ModeSticky ||| 0o700) } 10 exDir =
      readdirents linuxAmd64 exWorld 10 exDir ∧
    (∀ r trace, readdirents linuxAmd64 exWorld 10 exDir = .done (r, trace) →
      ∀ e ∈ r.entries, e.modeType &&& os.ModeType = e.modeType) ∧
    (∀ mode b, b &&& nonTypeBits = b →
      (mode ||| b) &&& os.ModeType = mode &&& os.ModeType) :=
  type_resolution_ignores_non_type_bits linuxAmd64 exWorld
    (fun _ => .ok (os.ModeDir ||| os.ModeSticky ||| 0o700)) 10 exDir
    (fun _ => show (os.ModeDir ||| 0o755) &&& os.ModeType =
      (os.ModeDir ||| os.ModeSticky ||| 0o700) &&& os.ModeType by decide)

/-! ### Failing runs -/

/-- C8: when, after any number of good batches, a batch holds a kept record
with an unknown tag whose metadata query fails, and the records before it in
the batch need no failing query, `readdirents` returns (given enough fuel) no
list and the error of the query wrapped with "cannot Stat"; the failed query
is followed by the close and by no other call. -/
theorem stat_failure_aborts (L : DirentLayout) (W : World) (osDirname : GoString)
    (fd : Nat) (ds : List (List Nat)) (rss : List (List RawRecord)) (d : List Nat)
    (pre post : List RawRecord) (r : RawRecord) (e fuel : Nat)
    (hopen : W.openDir osDirname = .ok fd)
    (hreads : ∀ i (h : i < ds.length),
      W.getdents fd i = .ok (ds.get ⟨i, h⟩) ∧ ds.get ⟨i, h⟩ ≠ [])
    (hrecs : batchRecords L (List.replicate bufsize 0) ds = some rss)
    (hstat : ∀ rs ∈ rss, StatsOk W osDirname rs)
    (hread : W.getdents fd ds.length = .ok d) (hd : d ≠ [])
    (hbatch : records L (fill d (fillAll (List.replicate bufsize 0) ds))
      (d.take bufsize).length = some (pre ++ r :: post))
    (hpre : StatsOk W osDirname pre)
    (hr : r.needsStat = true)
    (hfail : W.stat (W.join osDirname r.name) = .errno e)
    (hfuel : bufsize + ds.length + 1 < fuel) :
    ∃ before, readdirents L W fuel osDirname =
      .done ({ entries := []
               err := some (errors.Wrap (.pathError "stat" (W.join osDirname r.name) e)
                 "cannot Stat") },
        before ++ [.stat (W.join osDirname r.name), .close fd]) := by
  obtain ⟨g, rfl⟩ : ∃ g, fuel = (g + 1) + ds.length := ⟨fuel - ds.length - 1, by omega⟩
  rw [readdirents_after_batches L W osDirname fd ds rss (g + 1) hopen hreads hrecs hstat
    (by omega)]
  have hpos : ¬ (d.take bufsize).length ≤ 0 := by
    cases d with
    | nil => exact absurd rfl hd
    | cons a as => simp [bufsize, List.take]
  have hlen := records_length_le L _ d _ hbatch
  have hdec := decodeLoop_of_records L W osDirname ⟨fd, osDirname⟩
    (fill d (fillAll (List.replicate bufsize 0) ds)) (d.take bufsize).length _ 0
    (pre ++ r :: post) g (specEntries W osDirname rss.flatten)
    ([.open osDirname] ++ batchEvents W osDirname ⟨fd, osDirname⟩ rss ++ [.read fd])
    hbatch (by omega)
  rw [processRecords_fail W osDirname ⟨fd, osDirname⟩ r post e hr hfail pre _ _ hpre] at hdec
  refine ⟨[.open osDirname] ++ batchEvents W osDirname ⟨fd, osDirname⟩ rss ++ [.read fd] ++
    statEvents W osDirname pre, ?_⟩
  rw [readLoop]
  simp only [syscall.ReadDirent, hread, if_neg hpos, hdec]

set_option maxRecDepth 8000 in
theorem stat_failure_aborts_witness :
    ∃ before, readdirents linuxAmd64 exWorldStatFails (bufsize + 2) exDir =
      .done ({ entries := []
               err := some (errors.Wrap
                 (.pathError "stat" (exWorldStatFails.join exDir [99]) 2) "cannot Stat") },
        before ++ [.stat (exWorldStatFails.join exDir [99]), .close 3]) :=
  stat_failure_aborts linuxAmd64 exWorldStatFails exDir 3 [] [] exBatch
    [{ ino := 1, reclen := 24, tag := 4, name := [46] },
     { ino := 2, reclen := 24, tag := 4, name := [46, 46] },
     { ino := 5, reclen := 24, tag := 8, name := [97] },
     { ino := 0, reclen := 24, tag := 8, name := [98] }] []
    { ino := 7, reclen := 24, tag := 0, name := [99] } 2 (bufsize + 2)
    rfl (fun i h => absurd h (Nat.not_lt_zero i)) rfl (fun _ h => absurd h (List.not_mem_nil _))
    rfl (by decide) (by decide)
    (fun x hx hn => by
      simp only [List.mem_cons, List.mem_singleton, List.not_mem_nil, or_false] at hx
      rcases hx with rfl | rfl | rfl | rfl <;> exact absurd hn (by decide))
    (by decide) rfl (by decide)

/-- C9: when, after any number of good batches (none, one or more), the next
batch read fails, `readdirents` returns (given enough fuel) no list and the
errno of the read wrapped with "cannot ReadDirent", and the last call before
it returns is the close of the directory handle. -/
theorem read_failure_aborts (L : DirentLayout) (W : World) (osDirname : GoString)
    (fd : Nat) (ds : List (List Nat)) (rss : List (List RawRecord)) (e fuel : Nat)
    (hopen : W.openDir osDirname = .ok fd)
    (hreads : ∀ i (h : i < ds.length),
      W.getdents fd i = .ok (ds.get ⟨i, h⟩) ∧ ds.get ⟨i, h⟩ ≠ [])
    (hrecs : batchRecords L (List.replicate bufsize 0) ds = some rss)
    (hstat : ∀ rs ∈ rss, StatsOk W osDirname rs)
    (hread : W.getdents fd ds.length = .errno e)
    (hfuel : bufsize + ds.length + 1 < fuel) :
    ∃ before, readdirents L W fuel osDirname =
      .done ({ entries := [], err := some (errors.Wrap (.errno e) "cannot ReadDirent") },
        before ++ [.read fd, .close fd]) := by
  obtain ⟨g, rfl⟩ : ∃ g, fuel = (g + 1) + ds.length := ⟨fuel - ds.length - 1, by omega⟩
  rw [readdirents_after_batches L W osDirname fd ds rss (g + 1) hopen hreads hrecs hstat
    (by omega)]
  refine ⟨[.open osDirname] ++ batchEvents W osDirname ⟨fd, osDirname⟩ rss, ?_⟩
  rw [readLoop]
  simp only [syscall.ReadDirent, hread]

set_option maxRecDepth 8000 in
theorem read_failure_aborts_witness :
    ∃ before, readdirents linuxAmd64 exWorldReadFails (bufsize + 3) exDir =
      .done ({ entries := [], err := some (errors.Wrap (.errno 5) "cannot ReadDirent") },
        before ++ [.read 3, .close 3]) :=
  read_failure_aborts linuxAmd64 exWorldReadFails exDir 3 [exBatch] [exRecords] 5 (bufsize + 3)
    rfl
    (fun i h => by
      have hi : i = 0 := by simpa using h
      subst hi
      exact ⟨rfl, show exBatch ≠ [] by decide⟩)
    (by decide) (fun _ _ _ _ _ => ⟨_, rfl⟩) rfl (by decide)

/-! ### How the loops are left, and the calls made on the way -/

/-- The metadata query whose failure makes the inner loop return is made on
a path joined from the directory name and the name of the record. -/
theorem decodeStep_ret_join (L : DirentLayout) (W : World) (osDirname : GoString) (dh : File)
    (mem : List Nat) (n cur : Nat) (r : Ret) (evs : List Event)
    (h : decodeStep L W osDirname dh mem n cur = .ret r evs) :
    ∃ nm e, W.stat (W.join osDirname nm) = .errno e ∧
      r = { entries := []
            err := some (errors.Wrap (.pathError "stat" (W.join osDirname nm) e)
              "cannot Stat") } ∧
      evs = [.stat (W.join osDirname nm), .close dh.fd] := by
  unfold decodeStep at h
  split at h
  · cases h
  split at h
  · cases h
  split at h
  · cases h
  split at h
  · cases h
  split at h
  · cases h
  rename_i nameBytes _
  split at h
  · cases h
  split at h
  · cases h
  split at h
  · cases h
  · dsimp only at h
    split at h
    · rename_i err hs
      simp only [Step.ret.injEq] at h
      obtain ⟨rfl, rfl⟩ := h
      unfold os.Stat at hs
      split at hs
      · cases hs
      · rename_i e he
        cases hs
        exact ⟨nameBytes, e, he, rfl, rfl⟩
    · cases h

/-- The inner loop makes only metadata queries; when it returns from the
function, the last two calls are the failed query and the close, and the
result is no list and the wrapped error of that query. -/
theorem decodeLoop_exit (L : DirentLayout) (W : World) (osDirname : GoString) (dh : File)
    (mem : List Nat) (n : Nat) :
    ∀ (fuel cur : Nat) (entries : List Dirent) (trace : List Event) (fl : Flow),
      decodeLoop L W osDirname dh mem n fuel cur entries trace = .done fl →
      match fl with
      | .next _ trace' => ∃ evs, trace' = trace ++ evs ∧ ∀ ev ∈ evs, ∃ p, ev = Event.stat p
      | .ret r trace' =>
        ∃ evs nm e, trace' = trace ++ evs ++ [.stat (W.join osDirname nm), .close dh.fd] ∧
          (∀ ev ∈ evs, ∃ p, ev = Event.stat p) ∧
          W.stat (W.join osDirname nm) = .errno e ∧
          r = { entries := []
                err := some (errors.Wrap (.pathError "stat" (W.join osDirname nm) e)
                  "cannot Stat") } := by
  intro fuel
  induction fuel with
  | zero => intro cur entries trace fl h; simp [decodeLoop] at h
  | succ fuel ih =>
    intro cur entries trace fl h
    rw [decodeLoop] at h
    split at h
    · cases h
      exact ⟨[], by simp, by simp⟩
    · split at h
      · exact ih _ _ _ _ h
      · rename_i cur' d evs hstep
        have hd := (decodeStep_append L W osDirname dh mem n cur cur' d evs hstep).2.2
        have hevs : ∀ ev ∈ evs, ∃ p, ev = Event.stat p := by
          intro ev hev
          rcases hd with rfl | rfl
          · cases hev
          · rw [List.mem_singleton] at hev
            exact ⟨_, hev⟩
        have := ih _ _ _ _ h
        cases fl with
        | next es' tr' =>
          obtain ⟨evs', htr, hall⟩ := this
          refine ⟨evs ++ evs', by rw [htr, List.append_assoc], ?_⟩
          intro ev hev
          rcases List.mem_append.mp hev with h1 | h1
          · exact hevs ev h1
          · exact hall ev h1
        | ret r tr' =>
          obtain ⟨evs', nm, e, htr, hall, hs, hr⟩ := this
          refine ⟨evs ++ evs', nm, e, by rw [htr]; simp [List.append_assoc], ?_, hs, hr⟩
          intro ev hev
          rcases List.mem_append.mp hev with h1 | h1
          · exact hevs ev h1
          · exact hall ev h1
      · rename_i r evs hstep
        obtain ⟨nm, e, hs, rfl, rfl⟩ := decodeStep_ret_join L W osDirname dh mem n cur r evs hstep
        cases h
        exact ⟨[], nm, e, by simp, by simp, hs, rfl⟩
      · cases h
      · cases h

/-- However the outer loop returns, the close of the directory handle is its
last call and the calls before it are batch reads and metadata queries; and
the error it returns is nil, or the wrapped errno of a failed batch read, or
the wrapped error of a failed metadata query, or the error of the close. -/
theorem readLoop_exit (L : DirentLayout) (W : World) (osDirname : GoString) (dh : File) :
    ∀ (fuel : Nat) (mem : List Nat) (k : Nat) (entries : List Dirent) (trace : List Event)
      (r : Ret) (trace' : List Event),
      readLoop L W osDirname dh fuel mem k entries trace = .done (r, trace') →
      (∃ mid, trace' = trace ++ mid ++ [.close dh.fd] ∧
        ∀ ev ∈ mid, ev = Event.read dh.fd ∨ ∃ p, ev = Event.stat p) ∧
      (r.err = none ∨
        (∃ j e, W.getdents dh.fd j = .errno e ∧
          r = { entries := [], err := some (errors.Wrap (.errno e) "cannot ReadDirent") }) ∨
        (∃ nm e, W.stat (W.join osDirname nm) = .errno e ∧
          r = { entries := []
                err := some (errors.Wrap (.pathError "stat" (W.join osDirname nm) e)
                  "cannot Stat") }) ∨
        (∃ e, W.close dh.fd = some e ∧
          r = { entries := [], err := some (.pathError "close" dh.name e) })) := by
  intro fuel
  induction fuel with
  | zero => intro mem k entries trace r trace' h; simp [readLoop] at h
  | succ fuel ih =>
    intro mem k entries trace r trace' h
    rw [readLoop] at h
    split at h
    · rename_i err hread
      cases h
      refine ⟨⟨[.read dh.fd], by simp, by simp⟩, Or.inr (Or.inl ?_)⟩
      unfold syscall.ReadDirent at hread
      split at hread
      · rename_i e he
        cases hread
        exact ⟨k, e, he, rfl⟩
      · cases hread
    · rename_i n mem' hread
      split at h
      · split at h
        · rename_i err hclose
          cases h
          refine ⟨⟨[.read dh.fd], by simp, by simp⟩, Or.inr (Or.inr (Or.inr ?_))⟩
          unfold File.Close at hclose
          split at hclose
          · cases hclose
          · rename_i e he
            cases hclose
            exact ⟨e, he, rfl⟩
        · cases h
          exact ⟨⟨[.read dh.fd], by simp, by simp⟩, Or.inl rfl⟩
      · split at h
        · rename_i entries' tr' hdec
          obtain ⟨evs, htr, hall⟩ := decodeLoop_exit L W osDirname dh mem' n fuel 0 entries _ _ hdec
          obtain ⟨⟨mid, hmid, hmall⟩, herr⟩ := ih _ _ _ _ _ _ h
          refine ⟨⟨[.read dh.fd] ++ evs ++ mid, by rw [hmid, htr]; simp [List.append_assoc], ?_⟩,
            herr⟩
          intro ev hev
          simp only [List.mem_append, List.mem_singleton] at hev
          rcases hev with (rfl | h1) | h1
          · exact Or.inl rfl
          · exact Or.inr (hall ev h1)
          · exact hmall ev h1
        · rename_i r' tr' hdec
          obtain ⟨evs, nm, e, htr, hall, hs, hr⟩ :=
            decodeLoop_exit L W osDirname dh mem' n fuel 0 entries _ _ hdec
          cases h
          refine ⟨⟨[.read dh.fd] ++ evs ++ [.stat (W.join osDirname nm)],
            by rw [htr]; simp [List.append_assoc], ?_⟩, Or.inr (Or.inr (Or.inl ⟨nm, e, hs, hr⟩))⟩
          intro ev hev
          simp only [List.mem_append, List.mem_singleton] at hev
          rcases hev with (rfl | h1) | rfl
          · exact Or.inl rfl
          · exact Or.inr (hall ev h1)
          · exact Or.inr ⟨_, rfl⟩
        · cases h
        · cases h
        · cases h

/-- However `readdirents` returns after a successful open, its calls are the
open, then batch reads and metadata queries, then the close, which is the
last call. -/
theorem readdirents_exit (L : DirentLayout) (W : World) (fuel : Nat) (osDirname : GoString)
    (fd : Nat) (r : Ret) (trace : List Event)
    (hopen : W.openDir osDirname = .ok fd)
    (h : readdirents L W fuel osDirname = .done (r, trace)) :
    (∃ mid, trace = [.open osDirname] ++ mid ++ [.close fd] ∧
      ∀ ev ∈ mid, ev = Event.read fd ∨ ∃ p, ev = Event.stat p) ∧
    (r.err = none ∨
      (∃ j e, W.getdents fd j = .errno e ∧
        r = { entries := [], err := some (errors.Wrap (.errno e) "cannot ReadDirent") }) ∨
      (∃ nm e, W.stat (W.join osDirname nm) = .errno e ∧
        r = { entries := []
              err := some (errors.Wrap (.pathError "stat" (W.join osDirname nm) e)
                "cannot Stat") }) ∨
      (∃ e, W.close fd = some e ∧
        r = { entries := [], err := some (.pathError "close" osDirname e) })) := by
  unfold readdirents at h
  simp only [os.Open, hopen] at h
  exact readLoop_exit L W osDirname ⟨fd, osDirname⟩ fuel _ 0 [] _ r trace h

/-! ### The directory handle -/

/-- C11: whenever `readdirents` returns after a successful open, by whichever
exit, its calls are the open, then only batch reads and metadata queries,
then one close of the handle, which is the last call: the handle is closed
exactly once and nothing is read or queried after the close. -/
theorem handle_closed_exactly_once (L : DirentLayout) (W : World) (fuel : Nat)
    (osDirname : GoString) (fd : Nat) (r : Ret) (trace : List Event)
    (hopen : W.openDir osDirname = .ok fd)
    (h : readdirents L W fuel osDirname = .done (r, trace)) :
    (∃ mid, trace = [.open osDirname] ++ mid ++ [.close fd] ∧
      ∀ ev ∈ mid, ev = Event.read fd ∨ ∃ p, ev = Event.stat p) ∧
    (trace.filter Event.isClose).length = 1 ∧
    trace.getLast? = some (.close fd) := by
  obtain ⟨⟨mid, htr, hmid⟩, _⟩ := readdirents_exit L W fuel osDirname fd r trace hopen h
  refine ⟨⟨mid, htr, hmid⟩, ?_, ?_⟩
  · have hnone : mid.filter Event.isClose = [] := by
      rw [List.filter_eq_nil_iff]
      intro ev hev
      rcases hmid ev hev with rfl | ⟨p, rfl⟩ <;> simp [Event.isClose]
    rw [htr]
    simp [List.filter_append, hnone, Event.isClose, List.filter_cons]
  · rw [htr, List.getLast?_append]
    simp

set_option maxRecDepth 8000 in
theorem handle_closed_exactly_once_witness :
    readdirents linuxAmd64 exWorldStatFails 10 exDir =
        .done ({ entries := []
                 err := some (.wrap (.pathError "stat" [47, 100, 47, 99] 2) "cannot Stat") },
          [.open exDir, .read 3, .stat [47, 100, 47, 99], .close 3]) ∧
      ((∃ mid, [Event.open exDir, .read 3, .stat [47, 100, 47, 99], .close 3] =
          [.open exDir] ++ mid ++ [.close 3] ∧
          ∀ ev ∈ mid, ev = Event.read 3 ∨ ∃ p, ev = Event.stat p) ∧
        ([Event.open exDir, .read 3, .stat [47, 100, 47, 99], .close 3].filter
          Event.isClose).length = 1 ∧
        [Event.open exDir, .read 3, .stat [47, 100, 47, 99], .close 3].getLast? =
          some (.close 3)) :=
  ⟨by decide,
    handle_closed_exactly_once linuxAmd64 exWorldStatFails 10 exDir 3
      { entries := []
        err := some (.wrap (.pathError "stat" [47, 100, 47, 99] 2) "cannot Stat") }
      [.open exDir, .read 3, .stat [47, 100, 47, 99], .close 3] rfl (by decide)⟩

/-! ### Which failure is returned -/

theorem decodeLoop_close_irrelevant (L : DirentLayout) (W : World)
    (close' : Nat → Option Nat) (osDirname : GoString) (dh : File) (mem : List Nat) (n : Nat) :
    ∀ (fuel cur : Nat) (entries : List Dirent) (trace : List Event),
      decodeLoop L { W with close := close' } osDirname dh mem n fuel cur entries trace =
        decodeLoop L W osDirname dh mem n fuel cur entries trace := by
  intro fuel
  induction fuel with
  | zero => intro cur entries trace; rfl
  | succ fuel ih =>
    intro cur entries trace
    rw [decodeLoop, decodeLoop]
    have hs : decodeStep L { W with close := close' } osDirname dh mem n cur =
        decodeStep L W osDirname dh mem n cur := rfl
    rw [hs]
    split
    · rfl
    · split
      · exact ih _ _ _
      · exact ih _ _ _
      · rfl
      · rfl
      · rfl

/-- A run that returns a wrapped error (a failed batch read or metadata
query) returns the same whatever close would answer. -/
theorem readLoop_close_irrelevant (L : DirentLayout) (W : World)
    (close' : Nat → Option Nat) (osDirname : GoString) (dh : File) :
    ∀ (fuel : Nat) (mem : List Nat) (k : Nat) (entries : List Dirent) (trace : List Event)
      (r : Ret) (trace' : List Event) (cause : GoError) (msg : String),
      readLoop L W osDirname dh fuel mem k entries trace = .done (r, trace') →
      r.err = some (.wrap cause msg) →
      readLoop L { W with close := close' } osDirname dh fuel mem k entries trace =
        .done (r, trace') := by
  intro fuel
  induction fuel with
  | zero => intro mem k entries trace r trace' cause msg h; simp [readLoop] at h
  | succ fuel ih =>
    intro mem k entries trace r trace' cause msg h herr
    rw [readLoop] at h ⊢
    have hrd : syscall.ReadDirent { W with close := close' } dh.fd k mem =
        syscall.ReadDirent W dh.fd k mem := rfl
    rw [hrd]
    split at h
    · exact h
    · rename_i n mem' hread
      split at h
      · rename_i hn
        rw [if_pos hn]
        split at h
        · rename_i err hclose
          cases h
          unfold File.Close at hclose
          split at hclose
          · cases hclose
          · cases hclose
            cases herr
        · cases h
          cases herr
      · rename_i hn
        rw [if_neg hn, decodeLoop_close_irrelevant L W close']
        split at h
        · exact ih _ _ _ _ _ _ _ _ h herr
        · exact h
        · cases h
        · cases h
        · cases h

/-- C12: first failure wins.  When the open, every batch read (up to the one
that returns zero bytes) and every needed metadata query succeed and close
fails, `readdirents` returns no list and the error of the close.  When it
returns the wrapped error of a failed batch read or metadata query, it returns
the same list, error and calls whatever the close answers. -/
theorem first_failure_wins (L : DirentLayout) (W : World)
    (osDirname : GoString) (fd : Nat) (ds : List (List Nat)) (rss : List (List RawRecord))
    (e fuel : Nat)
    (hopen : W.openDir osDirname = .ok fd)
    (hreads : ∀ i (h : i < ds.length),
      W.getdents fd i = .ok (ds.get ⟨i, h⟩) ∧ ds.get ⟨i, h⟩ ≠ [])
    (hend : W.getdents fd ds.length = .ok [])
    (hrecs : batchRecords L (List.replicate bufsize 0) ds = some rss)
    (hstat : ∀ rs ∈ rss, StatsOk W osDirname rs)
    (hclose : W.close fd = some e)
    (hfuel : bufsize + ds.length + 1 < fuel) :
    (∃ trace, readdirents L W fuel osDirname =
      .done ({ entries := [], err := some (.pathError "close" osDirname e) }, trace)) ∧
    (∀ (W2 : World) (close' : Nat → Option Nat) (fuel2 : Nat) (dir2 : GoString) (r : Ret)
      (trace : List Event) (cause : GoError) (msg : String),
      readdirents L W2 fuel2 dir2 = .done (r, trace) →
      r.err = some (errors.Wrap cause msg) →
      readdirents L { W2 with close := close' } fuel2 dir2 = .done (r, trace)) := by
  constructor
  · obtain ⟨g, rfl⟩ : ∃ g, fuel = (g + 1) + ds.length := ⟨fuel - ds.length - 1, by omega⟩
    rw [readdirents_after_batches L W osDirname fd ds rss (g + 1) hopen hreads hrecs hstat
      (by omega)]
    refine ⟨[.open osDirname] ++ batchEvents W osDirname ⟨fd, osDirname⟩ rss ++
      [.read fd, .close fd], ?_⟩
    rw [readLoop]
    simp [syscall.ReadDirent, hend, File.Close, hclose]
  · intro W2 close' fuel2 dir2 r trace cause msg h herr
    unfold readdirents at h ⊢
    have ho : os.Open { W2 with close := close' } dir2 = os.Open W2 dir2 := rfl
    rw [ho]
    split at h
    · exact h
    · exact readLoop_close_irrelevant L W2 close' dir2 _ fuel2 _ 0 [] _ r trace cause msg h herr

set_option maxRecDepth 8000 in
theorem first_failure_wins_witness :
    (∃ trace, readdirents linuxAmd64 exWorldCloseFails (bufsize + 3) exDir =
      .done ({ entries := [], err := some (.pathError "close" exDir 5) }, trace)) ∧
    (∀ (W2 : World) (close' : Nat → Option Nat) (fuel2 : Nat) (dir2 : GoString) (r : Ret)
      (trace : List Event) (cause : GoError) (msg : String),
      readdirents linuxAmd64 W2 fuel2 dir2 = .done (r, trace) →
      r.err = some (errors.Wrap cause msg) →
      readdirents linuxAmd64 { W2 with close := close' } fuel2 dir2 = .done (r, trace)) :=
  first_failure_wins linuxAmd64 exWorldCloseFails exDir 3 [exBatch] [exRecords] 5 (bufsize + 3)
    rfl
    (fun i h => by
      have hi : i = 0 := by simpa using h
      subst hi
      exact ⟨rfl, show exBatch ≠ [] by decide⟩)
    rfl (by decide) (fun _ _ _ _ _ => ⟨_, rfl⟩) rfl (by decide)

/-! ### The errors -/

/-- C13: when the directory cannot be opened, `readdirents` returns (whatever
the fuel) no list and the error of `os.Open` wrapped with "cannot Open"; that
error carries the path it was called with and the errno; and the open is the
only call made: no batch read, no metadata query, no close. -/
theorem open_failure_returns_path_error (L : DirentLayout) (W : World) (fuel : Nat)
    (osDirname : GoString) (e : Nat) (hopen : W.openDir osDirname = .errno e) :
    readdirents L W fuel osDirname =
      .done ({ entries := []
               err := some (errors.Wrap (.pathError "open" osDirname e) "cannot Open") },
        [.open osDirname]) ∧
    (errors.Wrap (.pathError "open" osDirname e) "cannot Open").carriesPath osDirname = true ∧
    (errors.Wrap (.pathError "open" osDirname e) "cannot Open").osError = e := by
  refine ⟨?_, ?_, rfl⟩
  · unfold readdirents
    simp only [os.Open, hopen]
  · simp [errors.Wrap, GoError.carriesPath]

theorem open_failure_returns_path_error_witness :
    readdirents linuxAmd64 exWorldNoDir 0 exDir =
      .done ({ entries := []
               err := some (errors.Wrap (.pathError "open" exDir 2) "cannot Open") },
        [.open exDir]) ∧
    (errors.Wrap (.pathError "open" exDir 2) "cannot Open").carriesPath exDir = true ∧
    (errors.Wrap (.pathError "open" exDir 2) "cannot Open").osError = 2 :=
  open_failure_returns_path_error linuxAmd64 exWorldNoDir 0 exDir 2 rfl

set_option maxRecDepth 8000 in
/-- C14 (counterexample): when the second batch read of "/d" fails with errno
5, the error returned is `errors.Wrap(errno 5, "cannot ReadDirent")`, and it
carries no path at all. -/
theorem read_error_carries_no_path :
    readdirents linuxAmd64 exWorldReadFails 10 exDir =
      .done ({ entries := [], err := some (errors.Wrap (.errno 5) "cannot ReadDirent") },
        [.open exDir, .read 3, .stat [47, 100, 47, 99], .read 3, .close 3]) ∧
    ¬ ∃ path, (errors.Wrap (.errno 5) "cannot ReadDirent").carriesPath path = true := by
  refine ⟨by decide, ?_⟩
  rintro ⟨path, h⟩
  simp [errors.Wrap, GoError.carriesPath] at h

/-- C14 (amended): the error of every failing run is one of four: the
`*os.PathError` of the failed open (operation, directory path, errno) wrapped
with "cannot Open"; the bare errno of the failed batch read wrapped with
"cannot ReadDirent", which carries no path; the `*os.PathError` of the failed
metadata query (operation, joined path, errno) wrapped with "cannot Stat"; or
the `*os.PathError` of the failed close (operation, directory path, errno). -/
theorem returned_error_kinds (L : DirentLayout) (W : World) (fuel : Nat)
    (osDirname : GoString) (r : Ret) (trace : List Event) (err : GoError)
    (h : readdirents L W fuel osDirname = .done (r, trace))
    (herr : r.err = some err) :
    (∃ e, W.openDir osDirname = .errno e ∧
      err = errors.Wrap (.pathError "open" osDirname e) "cannot Open" ∧
      err.carriesPath osDirname = true ∧ err.osError = e) ∨
    (∃ fd j e, W.openDir osDirname = .ok fd ∧ W.getdents fd j = .errno e ∧
      err = errors.Wrap (.errno e) "cannot ReadDirent" ∧
      (∀ path, err.carriesPath path = false) ∧ err.osError = e) ∨
    (∃ nm e, W.stat (W.join osDirname nm) = .errno e ∧
      err = errors.Wrap (.pathError "stat" (W.join osDirname nm) e) "cannot Stat" ∧
      err.carriesPath (W.join osDirname nm) = true ∧ err.osError = e) ∨
    (∃ fd e, W.openDir osDirname = .ok fd ∧ W.close fd = some e ∧
      err = .pathError "close" osDirname e ∧
      err.carriesPath osDirname = true ∧ err.osError = e) := by
  cases hopen : W.openDir osDirname with
  | errno e =>
    left
    unfold readdirents at h
    simp only [os.Open, hopen] at h
    cases h
    cases herr
    exact ⟨e, rfl, rfl, by simp [errors.Wrap, GoError.carriesPath], rfl⟩
  | ok fd =>
    right
    obtain ⟨_, hkinds⟩ := readdirents_exit L W fuel osDirname fd r trace hopen h
    rcases hkinds with hnone | ⟨j, e, hj, rfl⟩ | ⟨nm, e, hs, rfl⟩ | ⟨e, hc, rfl⟩
    · rw [hnone] at herr
      cases herr
    · cases herr
      exact Or.inl ⟨fd, j, e, rfl, hj, rfl, fun _ => rfl, rfl⟩
    · cases herr
      exact Or.inr (Or.inl ⟨nm, e, hs, rfl, by simp [errors.Wrap, GoError.carriesPath], rfl⟩)
    · cases herr
      exact Or.inr (Or.inr ⟨fd, e, rfl, hc, rfl, by simp [GoError.carriesPath], rfl⟩)

set_option maxRecDepth 8000 in
theorem returned_error_kinds_witness :
    readdirents linuxAmd64 exWorldCloseFails 10 exDir =
        .done ({ entries := [], err := some (.pathError "close" exDir 5) },
          [.open exDir, .read 3, .stat [47, 100, 47, 99], .read 3, .close 3]) ∧
    ((∃ e, exWorldCloseFails.openDir exDir = .errno e ∧
      GoError.pathError "close" exDir 5 =
        errors.Wrap (.pathError "open" exDir e) "cannot Open" ∧
      (GoError.pathError "close" exDir 5).carriesPath exDir = true ∧
      (GoError.pathError "close" exDir 5).osError = e) ∨
    (∃ fd j e, exWorldCloseFails.openDir exDir = .ok fd ∧
      exWorldCloseFails.getdents fd j = .errno e ∧
      GoError.pathError "close" exDir 5 = errors.Wrap (.errno e) "cannot ReadDirent" ∧
      (∀ path, (GoError.pathError "close" exDir 5).carriesPath path = false) ∧
      (GoError.pathError "close" exDir 5).osError = e) ∨
    (∃ nm e, exWorldCloseFails.stat (exWorldCloseFails.join exDir nm) = .errno e ∧
      GoError.pathError "close" exDir 5 =
        errors.Wrap (.pathError "stat" (exWorldCloseFails.join exDir nm) e) "cannot Stat" ∧
      (GoError.pathError "close" exDir 5).carriesPath (exWorldCloseFails.join exDir nm) = true ∧
      (GoError.pathError "close" exDir 5).osError = e) ∨
    (∃ fd e, exWorldCloseFails.openDir exDir = .ok fd ∧ exWorldCloseFails.close fd = some e ∧
      GoError.pathError "close" exDir 5 = .pathError "close" exDir e ∧
      (GoError.pathError "close" exDir 5).carriesPath exDir = true ∧
      (GoError.pathError "close" exDir 5).osError = e)) :=
  ⟨by decide,
    returned_error_kinds linuxAmd64 exWorldCloseFails 10 exDir
      { entries := [], err := some (.pathError "close" exDir 5) }
      [.open exDir, .read 3, .stat [47, 100, 47, 99], .read 3, .close 3]
      (.pathError "close" exDir 5) (by decide) rfl⟩

/-! ### The extracted name -/

theorem byteAt_eq_some (mem : List Nat) (c b : Nat) (h : byteAt mem c = some b) :
    ∃ a rest, mem.drop c = a :: rest ∧ b = a % 256 ∧ mem.drop (c + 1) = rest := by
  unfold byteAt at h
  cases hd : mem.drop c with
  | nil =>
    have hlen : mem.length ≤ c := List.drop_eq_nil_iff.mp hd
    have : mem.get? c = none := by simp [List.getElem?_eq_none hlen]
    rw [this] at h
    cases h
  | cons a rest =>
    have h0 : (mem.drop c).get? 0 = mem.get? c := by simp [List.getElem?_drop]
    rw [hd] at h0
    simp only [List.get?_cons_zero] at h0
    rw [← h0] at h
    simp only [Option.map_some', Option.some.injEq] at h
    refine ⟨a, rest, rfl, h.symm, ?_⟩
    have : mem.drop (c + 1) = (mem.drop c).drop 1 := by
      rw [List.drop_drop]
    rw [this, hd]
    rfl

/-- What the scan for the first NUL returns: the bytes before the index it
finds (or all `remaining` bytes when it finds none) are the scanned window up
to its first NUL. -/
theorem indexNul_spec (mem : List Nat) (start : Nat) :
    ∀ (remaining i : Nat) (idx : Int), indexNul mem start remaining i = some idx →
      (((mem.drop (start + i)).take (if idx = -1 then remaining else idx.toNat - i)).map
          (· % 256) =
        specName (((mem.drop (start + i)).take remaining).map (· % 256))) ∧
      (idx = -1 ∨ (0 ≤ idx ∧ i ≤ idx.toNat ∧ idx.toNat < i + remaining)) := by
  intro remaining
  induction remaining with
  | zero =>
    intro i idx h
    simp only [indexNul, Option.some.injEq] at h
    subst h
    simp [specName]
  | succ remaining ih =>
    intro i idx h
    unfold indexNul at h
    split at h
    · cases h
    · rename_i b hb
      obtain ⟨a, rest, hdrop, hba, hrest⟩ := byteAt_eq_some mem (start + i) b hb
      split at h
      · rename_i hb0
        cases h
        refine ⟨?_, Or.inr ⟨by omega, by simp, by simp⟩⟩
        have hne : ¬ ((i : Int) = -1) := by omega
        simp only [hne, if_false, Int.toNat_ofNat, Nat.sub_self, List.take_zero, List.map_nil]
        rw [hdrop]
        simp [specName, List.takeWhile, ← hba, hb0]
      · rename_i hb0
        have := ih (i + 1) idx h
        rw [show start + (i + 1) = start + i + 1 by omega, hrest] at this
        obtain ⟨heq, hbound⟩ := this
        rw [hdrop]
        have hb0' : (a % 256 != 0) = true := by
          rw [← hba]
          simpa using hb0
        rcases hbound with hneg | ⟨h0, h1, h2⟩
        · subst hneg
          refine ⟨?_, Or.inl rfl⟩
          simp only [if_true] at heq ⊢
          simp only [List.take_succ_cons, List.map_cons, specName, List.takeWhile_cons, hb0',
            if_true]
          exact congrArg _ heq
        · refine ⟨?_, Or.inr ⟨h0, by omega, by omega⟩⟩
          have hne : ¬ (idx = -1) := by omega
          simp only [hne, if_false] at heq ⊢
          rw [show idx.toNat - i = (idx.toNat - (i + 1)) + 1 by omega]
          simp only [List.take_succ_cons, List.map_cons, specName, List.takeWhile_cons, hb0',
            if_true]
          exact congrArg _ heq

theorem specName_no_nul (field : List Nat) : ∀ b ∈ specName field, b ≠ 0 := by
  intro b hb
  have := List.mem_takeWhile_imp hb
  simpa using this

theorem specName_length_le (field : List Nat) : (specName field).length ≤ field.length := by
  unfold specName
  exact (List.takeWhile_sublist _).length_le

/-- The name extracted for a record is the name field up to its first NUL;
it holds no NUL and is no longer than the field. -/
theorem extractName_spec (L : DirentLayout) (mem : List Nat) (cur : Nat) (nm : GoString)
    (h : extractName L mem cur = some nm) :
    nm = specName (nameField L mem cur) ∧ (∀ b ∈ nm, b ≠ 0) ∧ nm.length ≤ L.nameCap := by
  unfold extractName at h
  split at h
  · cases h
  · rename_i idx hidx
    simp only [Option.some.injEq] at h
    have hs := (indexNul_spec mem (cur + L.nameOff) L.nameCap 0 idx hidx).1
    simp only [Nat.add_zero, Nat.sub_zero] at hs
    have hnm : nm = specName (nameField L mem cur) := by
      rw [← h]
      exact hs
    refine ⟨hnm, ?_, ?_⟩
    · rw [hnm]
      exact specName_no_nul _
    · rw [hnm]
      have h1 := specName_length_le (nameField L mem cur)
      have h2 : (nameField L mem cur).length ≤ L.nameCap := by
        simp [nameField, List.length_take]
      omega

theorem specName_of_no_nul (field : List Nat) (h : ∀ b ∈ field, b ≠ 0) :
    specName field = field := by
  unfold specName
  rw [List.takeWhile_eq_self_iff]
  intro b hb
  simpa using h b hb

theorem specName_append_nul (pre post : List Nat) (h : ∀ b ∈ pre, b ≠ 0) :
    specName (pre ++ 0 :: post) = pre := by
  induction pre with
  | nil => simp [specName]
  | cons a as ih =>
    have ha : (a != 0) = true := by simpa using h a (List.mem_cons_self _ _)
    have := ih (fun b hb => h b (List.mem_cons_of_mem _ hb))
    unfold specName at this ⊢
    simp only [List.cons_append, List.takeWhile_cons, ha, if_true]
    rw [this]

/-- The scan finds an answer whenever the whole window lies inside the
scratch buffer. -/
theorem indexNul_total (mem : List Nat) (start : Nat) :
    ∀ (remaining i : Nat), start + i + remaining ≤ mem.length →
      ∃ idx, indexNul mem start remaining i = some idx := by
  intro remaining
  induction remaining with
  | zero => intro i _; exact ⟨-1, rfl⟩
  | succ remaining ih =>
    intro i hlen
    unfold indexNul
    have hlt : start + i < mem.length := by omega
    have hb : byteAt mem (start + i) = some (mem[start + i] % 256) := by
      simp [byteAt, List.getElem?_eq_getElem hlt]
    rw [hb]
    dsimp only
    split
    · exact ⟨_, rfl⟩
    · exact ih (i + 1) (by omega)

theorem decodeStep_append_name (L : DirentLayout) (W : World) (osDirname : GoString)
    (dh : File) (mem : List Nat) (n cur cur' : Nat) (d : Dirent) (evs : List Event)
    (h : decodeStep L W osDirname dh mem n cur = .append cur' d evs) :
    extractName L mem cur = some d.name := by
  unfold decodeStep at h
  split at h
  · cases h
  split at h
  · cases h
  split at h
  · cases h
  split at h
  · cases h
  split at h
  · cases h
  rename_i nameBytes hname
  split at h
  · cases h
  split at h
  · cases h
  split at h
  · simp only [Step.append.injEq] at h
    obtain ⟨_, rfl, _⟩ := h
    exact hname
  · dsimp only at h
    split at h
    · cases h
    · simp only [Step.append.injEq] at h
      obtain ⟨_, rfl, _⟩ := h
      exact hname

theorem decodeLoop_names (L : DirentLayout) (W : World) (osDirname : GoString) (dh : File)
    (mem : List Nat) (n : Nat) :
    ∀ (fuel cur : Nat) (entries : List Dirent) (trace : List Event)
      (entries' : List Dirent) (trace' : List Event),
      (∀ e ∈ entries, NameFrom L e) →
      decodeLoop L W osDirname dh mem n fuel cur entries trace = .done (.next entries' trace') →
      ∀ e ∈ entries', NameFrom L e := by
  intro fuel
  induction fuel with
  | zero => intro cur entries trace entries' trace' _ h; simp [decodeLoop] at h
  | succ fuel ih =>
    intro cur entries trace entries' trace' hall h
    rw [decodeLoop] at h
    split at h
    · cases h
      exact hall
    · split at h
      · exact ih _ _ _ _ _ hall h
      · rename_i cur' d evs hstep
        refine ih _ _ _ _ _ ?_ h
        intro e he
        rcases List.mem_append.mp he with he | he
        · exact hall e he
        · rw [List.mem_singleton] at he
          subst he
          exact ⟨mem, cur, decodeStep_append_name L W osDirname dh mem n cur cur' _ evs hstep⟩
      · cases h
      · cases h
      · cases h

theorem readLoop_names (L : DirentLayout) (W : World) (osDirname : GoString) (dh : File) :
    ∀ (fuel : Nat) (mem : List Nat) (k : Nat) (entries : List Dirent) (trace : List Event)
      (r : Ret) (trace' : List Event),
      (∀ e ∈ entries, NameFrom L e) →
      readLoop L W osDirname dh fuel mem k entries trace = .done (r, trace') →
      ∀ e ∈ r.entries, NameFrom L e := by
  intro fuel
  induction fuel with
  | zero => intro mem k entries trace r trace' _ h; simp [readLoop] at h
  | succ fuel ih =>
    intro mem k entries trace r trace' hall h
    rw [readLoop] at h
    split at h
    · cases h
      simp
    · rename_i n mem' hread
      split at h
      · split at h
        · cases h
          simp
        · cases h
          exact hall
      · split at h
        · rename_i entries' tr' hdec
          exact ih _ _ _ _ _ _
            (decodeLoop_names L W osDirname dh mem' n fuel 0 entries _ _ _ hall hdec) h
        · rename_i r' tr' hdec
          obtain ⟨_, _, _, _, _, _, hr⟩ :=
            decodeLoop_exit L W osDirname dh mem' n fuel 0 entries _ _ hdec
          cases h
          rw [hr]
          simp
        · cases h
        · cases h
        · cases h


/-- C15: the name extracted for a record is the part of the fixed-capacity
name field before its first NUL byte when the field holds one, and the whole
field when it holds none; the extraction gives a name whenever the field lies
inside the scratch buffer; and every name that `readdirents` returns holds no
NUL byte and is no longer than the field. -/
theorem extracted_name_ends_at_first_nul (L : DirentLayout) (mem : List Nat) (cur : Nat) :
    (cur + L.nameOff + L.nameCap ≤ mem.length → ∃ nm, extractName L mem cur = some nm) ∧
    (∀ nm, extractName L mem cur = some nm →
      nm = specName (nameField L mem cur) ∧
      (∀ pre post, nameField L mem cur = pre ++ 0 :: post → (∀ b ∈ pre, b ≠ 0) → nm = pre) ∧
      ((∀ b ∈ nameField L mem cur, b ≠ 0) → nm = nameField L mem cur) ∧
      (∀ b ∈ nm, b ≠ 0) ∧ nm.length ≤ L.nameCap) ∧
    (∀ (W : World) (fuel : Nat) (osDirname : GoString) (r : Ret) (trace : List Event),
      readdirents L W fuel osDirname = .done (r, trace) →
      ∀ e ∈ r.entries, (∀ b ∈ e.name, b ≠ 0) ∧ e.name.length ≤ L.nameCap) := by
  refine ⟨?_, ?_, ?_⟩
  · intro hlen
    obtain ⟨idx, hidx⟩ := indexNul_total mem (cur + L.nameOff) L.nameCap 0 (by omega)
    unfold extractName
    rw [hidx]
    exact ⟨_, rfl⟩
  · intro nm h
    obtain ⟨h1, h2, h3⟩ := extractName_spec L mem cur nm h
    refine ⟨h1, ?_, ?_, h2, h3⟩
    · intro pre post hf hpre
      rw [h1, hf]
      exact specName_append_nul pre post hpre
    · intro hno
      rw [h1]
      exact specName_of_no_nul _ hno
  · intro W fuel osDirname r trace h e he
    have hfrom : NameFrom L e := by
      unfold readdirents at h
      split at h
      · cases h
        cases he
      · exact readLoop_names L W osDirname _ fuel _ 0 [] _ r trace (by simp) h e he
    obtain ⟨m, c, hx⟩ := hfrom
    obtain ⟨_, h2, h3⟩ := extractName_spec L m c e.name hx
    exact ⟨h2, h3⟩

theorem extracted_name_ends_at_first_nul_witness :
    extractName linuxAmd64 exBatch 48 = some [97] ∧
    nameField linuxAmd64 exBatch 48 = [97] ++ 0 :: nameField linuxAmd64 exBatch 50 ∧
    extractName exLayout4 (linuxRecord 5 24 8 [97, 98, 99, 100, 101]) 0 = some [97, 98, 99, 100] ∧
    ([97, 98, 99, 100] : List Nat) =
      specName (nameField exLayout4 (linuxRecord 5 24 8 [97, 98, 99, 100, 101]) 0) :=
  ⟨by decide, by decide, by decide,
    ((extracted_name_ends_at_first_nul exLayout4
      (linuxRecord 5 24 8 [97, 98, 99, 100, 101]) 0).2.1 [97, 98, 99, 100] (by decide)).1⟩

/-! ### The cursor of the inner loop -/

theorem recordsFrom_cons (L : DirentLayout) (mem : List Nat) (n f cur : Nat)
    (r : RawRecord) (rest : List RawRecord)
    (h : recordsFrom L mem n f cur = some (r :: rest)) :
    cur < n ∧ recordAt L mem cur = some r ∧ 0 < r.reclen ∧ r.reclen ≤ n - cur ∧
      ∃ f', f = f' + 1 ∧ recordsFrom L mem n f' (cur + r.reclen) = some rest := by
  cases f with
  | zero =>
    unfold recordsFrom at h
    split at h <;> cases h
  | succ f' =>
    unfold recordsFrom at h
    split at h
    · cases h
    · rename_i hn
      split at h
      · cases h
      · rename_i r' hr
        split at h
        · cases h
        · rename_i hlen
          rw [not_or] at hlen
          cases hrest : recordsFrom L mem n f' (cur + r'.reclen) with
          | none => rw [hrest] at h; cases h
          | some rest' =>
            rw [hrest] at h
            simp only [Option.map_some', Option.some.injEq, List.cons.injEq] at h
            obtain ⟨rfl, rfl⟩ := h
            exact ⟨by omega, hr, by omega, by omega, f', rfl, hrest⟩

/-- The declared lengths of the records of a span add up to the span. -/
theorem recordsFrom_sum (L : DirentLayout) (mem : List Nat) (n : Nat) :
    ∀ (recs : List RawRecord) (f cur : Nat), recordsFrom L mem n f cur = some recs → cur ≤ n →
      cur + (recs.map (·.reclen)).sum = n := by
  intro recs
  induction recs with
  | nil =>
    intro f cur h hcur
    have hn : n ≤ cur := by
      cases f with
      | zero =>
        unfold recordsFrom at h
        split at h
        · assumption
        · cases h
      | succ f' =>
        unfold recordsFrom at h
        split at h
        · assumption
        · split at h
          · cases h
          · split at h
            · cases h
            · cases hrest : recordsFrom L mem n f' _ with
              | none => rw [hrest] at h; cases h
              | some rest' => rw [hrest] at h; cases h
    simp
    omega
  | cons r rest ih =>
    intro f cur h hcur
    obtain ⟨h1, _, _, h4, f', _, hrest⟩ := recordsFrom_cons L mem n f cur r rest h
    have := ih f' (cur + r.reclen) hrest (by omega)
    simp only [List.map_cons, List.sum_cons]
    omega

/-- After one iteration for each record of a prefix of the span whose needed
metadata queries succeed, the inner loop is at the cursor moved by the
declared lengths of those records, with their entries appended. -/
theorem decodeLoop_advance (L : DirentLayout) (W : World) (osDirname : GoString)
    (dh : File) (mem : List Nat) (n : Nat) :
    ∀ (pre post : List RawRecord) (f cur : Nat) (entries : List Dirent) (trace : List Event)
      (fuel : Nat),
      recordsFrom L mem n f cur = some (pre ++ post) → StatsOk W osDirname pre →
      decodeLoop L W osDirname dh mem n (fuel + pre.length) cur entries trace =
          decodeLoop L W osDirname dh mem n fuel (cur + (pre.map (·.reclen)).sum)
            (entries ++ specEntries W osDirname pre) (trace ++ statEvents W osDirname pre) ∧
        recordsFrom L mem n (f - pre.length) (cur + (pre.map (·.reclen)).sum) = some post := by
  intro pre
  induction pre with
  | nil =>
    intro post f cur entries trace fuel h _
    simpa [specEntries, statEvents] using h
  | cons r pre ih =>
    intro post f cur entries trace fuel h hok
    obtain ⟨h1, hr, _, h4, f', rfl, hrest⟩ :=
      recordsFrom_cons L mem n f cur r (pre ++ post) h
    have hpre : StatsOk W osDirname pre := fun x hx hn => hok x (List.mem_cons_of_mem _ hx) hn
    have hstep := decodeStep_of_record L W osDirname dh mem n cur r hr (Nat.not_lt.mpr h4)
    rw [show fuel + (r :: pre).length = (fuel + pre.length) + 1 by simp; omega, decodeLoop,
      if_neg (Nat.not_le.mpr h1), hstep]
    have hsum : cur + ((r :: pre).map (·.reclen)).sum =
        cur + r.reclen + (pre.map (·.reclen)).sum := by
      simp only [List.map_cons, List.sum_cons]
      omega
    have hf : f' + 1 - (r :: pre).length = f' - pre.length := by simp
    rw [hsum, hf]
    by_cases hk : r.kept = true
    · rw [if_pos hk]
      cases hm : inlineMode r.tag with
      | some mode =>
        simp only [List.append_nil]
        obtain ⟨ha, hb⟩ := ih post f' (cur + r.reclen)
          (entries ++ [{ name := r.name, modeType := mode &&& os.ModeType }]) trace fuel
          hrest hpre
        refine ⟨?_, hb⟩
        rw [ha]
        simp [specEntries, statEvents, List.filter_cons, hk, RawRecord.needsStat, hm,
          specEntry]
      | none =>
        have hns : r.needsStat = true := by simp [RawRecord.needsStat, hk, hm]
        obtain ⟨mode, hmode⟩ := hok r (List.mem_cons_self _ _) hns
        simp only [os.Stat, hmode]
        obtain ⟨ha, hb⟩ := ih post f' (cur + r.reclen)
          (entries ++ [{ name := r.name, modeType := mode &&& os.ModeType }])
          (trace ++ [.stat (W.join osDirname r.name)]) fuel hrest hpre
        refine ⟨?_, hb⟩
        rw [ha]
        simp [specEntries, statEvents, List.filter_cons, hk, hns, hm, hmode, specEntry]
    · rw [if_neg hk]
      dsimp only
      obtain ⟨ha, hb⟩ := ih post f' (cur + r.reclen) entries trace fuel hrest hpre
      refine ⟨?_, hb⟩
      rw [ha]
      have hk' : r.kept = false := by simpa using hk
      simp [specEntries, statEvents, List.filter_cons, hk', RawRecord.needsStat]

/-- A live record with declared length zero is decoded again and again: the
cursor does not move. -/
theorem decodeLoop_zero_reclen (W : World) (osDirname : GoString) (dh : File) :
    ∀ (fuel : Nat) (entries : List Dirent) (trace : List Event),
      decodeLoop linuxAmd64 W osDirname dh exZeroReclen 24 fuel 0 entries trace = .timeout := by
  intro fuel
  induction fuel with
  | zero => intro entries trace; rfl
  | succ fuel ih =>
    intro entries trace
    have hstep : decodeStep linuxAmd64 W osDirname dh exZeroReclen 24 0 =
        .append 0 { name := [97], modeType := 0 } [] := rfl
    rw [decodeLoop, if_neg (by decide), hstep]
    exact ih _ _

/-- C16 (counterexample): a span of two records with declared length 24 each,
positive and inside the span, in a world where the metadata query for the
first one fails: the inner loop returns from the function at the first record;
it never reaches the end of the span and never visits the second record. -/
theorem decode_loop_left_by_return :
    records linuxAmd64 exSpanUnknownFirst 48 =
      some [{ ino := 7, reclen := 24, tag := 0, name := [99] },
            { ino := 8, reclen := 24, tag := 8, name := [101] }] ∧
    decodeLoop linuxAmd64 exWorldStatFails exDir ⟨3, exDir⟩ exSpanUnknownFirst 48 10 0 [] [] =
      .done (.ret { entries := []
                    err := some (.wrap (.pathError "stat" [47, 100, 47, 99] 2) "cannot Stat") }
        [.stat [47, 100, 47, 99], .close 3]) ∧
    ∀ fuel entries trace,
      decodeLoop linuxAmd64 exWorldStatFails exDir ⟨3, exDir⟩ exSpanUnknownFirst 48 fuel 0 [] [] ≠
        .done (.next entries trace) := by
  refine ⟨by decide, by decide, ?_⟩
  intro fuel entries trace
  cases fuel with
  | zero => simp [decodeLoop]
  | succ fuel =>
    have hstep : decodeStep linuxAmd64 exWorldStatFails exDir ⟨3, exDir⟩ exSpanUnknownFirst 48 0 =
        .ret { entries := []
               err := some (.wrap (.pathError "stat" [47, 100, 47, 99] 2) "cannot Stat") }
          [.stat [47, 100, 47, 99], .close 3] := by decide
    rw [decodeLoop, if_neg (by decide), hstep]
    simp

/-- C16 (amended): on a span that is a sequence of records, each with a
positive declared length that fits in the rest of the span, and whose needed
metadata queries all succeed, the inner loop terminates at the end of the
span without a panic: with more fuel than records it runs off the end, with
less it is still running; at every record the cursor is at the sum of the
declared lengths of the records before it and one iteration moves it by the
declared length of that record; and the declared lengths add up to the span.
For the span `exZeroReclen`, whose record declares length zero, the loop never
ends. -/
theorem decode_loop_walks_the_span (L : DirentLayout) (W : World) (osDirname : GoString)
    (dh : File) (mem : List Nat) (n f cur : Nat) (recs : List RawRecord)
    (entries : List Dirent) (trace : List Event)
    (hparse : recordsFrom L mem n f cur = some recs) (hcur : cur ≤ n)
    (hstat : StatsOk W osDirname recs) :
    (∀ fuel, recs.length < fuel →
      decodeLoop L W osDirname dh mem n fuel cur entries trace =
        .done (.next (entries ++ specEntries W osDirname recs)
          (trace ++ statEvents W osDirname recs))) ∧
    (∀ fuel, fuel ≤ recs.length →
      decodeLoop L W osDirname dh mem n fuel cur entries trace = .timeout) ∧
    (∀ pre r post, recs = pre ++ r :: post →
      recordAt L mem (cur + (pre.map (·.reclen)).sum) = some r ∧
      0 < r.reclen ∧ r.reclen ≤ n - (cur + (pre.map (·.reclen)).sum) ∧
      ∀ fuel, decodeLoop L W osDirname dh mem n (fuel + pre.length + 1) cur entries trace =
        decodeLoop L W osDirname dh mem n fuel (cur + (pre.map (·.reclen)).sum + r.reclen)
          (entries ++ specEntries W osDirname (pre ++ [r]))
          (trace ++ statEvents W osDirname (pre ++ [r]))) ∧
    cur + (recs.map (·.reclen)).sum = n ∧
    (readLE exZeroReclen (0 + linuxAmd64.reclenOff) linuxAmd64.reclenSize = some 0 ∧
      ∀ fuel entries' trace',
        decodeLoop linuxAmd64 W osDirname dh exZeroReclen 24 fuel 0 entries' trace' =
          .timeout) := by
  have hsum := recordsFrom_sum L mem n recs f cur hparse hcur
  refine ⟨?_, ?_, ?_, hsum, by decide, decodeLoop_zero_reclen W osDirname dh⟩
  · intro fuel hfuel
    obtain ⟨g, rfl⟩ : ∃ g, fuel = (g + 1) + recs.length := ⟨fuel - recs.length - 1, by omega⟩
    have hp : recordsFrom L mem n f cur = some (recs ++ []) := by simpa using hparse
    rw [(decodeLoop_advance L W osDirname dh mem n recs [] f cur entries trace (g + 1) hp
      hstat).1, hsum, decodeLoop, if_pos (Nat.le_refl n)]
  · intro fuel hfuel
    have hp : recordsFrom L mem n f cur = some (recs.take fuel ++ recs.drop fuel) := by
      simpa using hparse
    have hok : StatsOk W osDirname (recs.take fuel) :=
      fun x hx hn => hstat x (List.mem_of_mem_take hx) hn
    have hlen : (recs.take fuel).length = fuel := by simp [List.length_take]; omega
    have := (decodeLoop_advance L W osDirname dh mem n (recs.take fuel) (recs.drop fuel) f cur
      entries trace 0 hp hok).1
    rw [hlen, Nat.zero_add] at this
    rw [this]
    rfl
  · intro pre r post hsplit
    subst hsplit
    have hpre : StatsOk W osDirname pre :=
      fun x hx hn => hstat x (List.mem_append_left _ hx) hn
    have hprer : StatsOk W osDirname (pre ++ [r]) := by
      intro x hx hn
      refine hstat x ?_ hn
      rcases List.mem_append.mp hx with h1 | h1
      · exact List.mem_append_left _ h1
      · rw [List.mem_singleton] at h1
        subst h1
        exact List.mem_append_right _ (List.mem_cons_self _ _)
    obtain ⟨_, hat⟩ := decodeLoop_advance L W osDirname dh mem n pre (r :: post) f cur entries
      trace 0 hparse hpre
    obtain ⟨_, hr, hpos, hfit, _⟩ := recordsFrom_cons L mem n _ _ r post hat
    refine ⟨hr, hpos, hfit, ?_⟩
    intro fuel
    have hp : recordsFrom L mem n f cur = some ((pre ++ [r]) ++ post) := by
      simpa using hparse
    have := (decodeLoop_advance L W osDirname dh mem n (pre ++ [r]) post f cur entries trace
      fuel hp hprer).1
    simp only [List.length_append, List.length_singleton, List.map_append, List.map_cons,
      List.map_nil, List.sum_append, List.sum_cons, List.sum_nil, Nat.add_zero] at this
    rw [← Nat.add_assoc] at this
    rw [← Nat.add_assoc] at this
    exact this

theorem decode_loop_walks_the_span_witness :
    (∀ fuel, exRecords.length < fuel →
      decodeLoop linuxAmd64 exWorld exDir ⟨3, exDir⟩ exBatch 120 fuel 0 [] [] =
        .done (.next ([] ++ specEntries exWorld exDir exRecords)
          ([] ++ statEvents exWorld exDir exRecords))) ∧
    (∀ fuel, fuel ≤ exRecords.length →
      decodeLoop linuxAmd64 exWorld exDir ⟨3, exDir⟩ exBatch 120 fuel 0 [] [] = .timeout) ∧
    (∀ pre r post, exRecords = pre ++ r :: post →
      recordAt linuxAmd64 exBatch (0 + (pre.map (·.reclen)).sum) = some r ∧
      0 < r.reclen ∧ r.reclen ≤ 120 - (0 + (pre.map (·.reclen)).sum) ∧
      ∀ fuel, decodeLoop linuxAmd64 exWorld exDir ⟨3, exDir⟩ exBatch 120
          (fuel + pre.length + 1) 0 [] [] =
        decodeLoop linuxAmd64 exWorld exDir ⟨3, exDir⟩ exBatch 120 fuel
          (0 + (pre.map (·.reclen)).sum + r.reclen)
          ([] ++ specEntries exWorld exDir (pre ++ [r]))
          ([] ++ statEvents exWorld exDir (pre ++ [r]))) ∧
    0 + (exRecords.map (·.reclen)).sum = 120 ∧
    (readLE exZeroReclen (0 + linuxAmd64.reclenOff) linuxAmd64.reclenSize = some 0 ∧
      ∀ fuel entries' trace',
        decodeLoop linuxAmd64 exWorld exDir ⟨3, exDir⟩ exZeroReclen 24 fuel 0 entries' trace' =
          .timeout) :=
  decode_loop_walks_the_span linuxAmd64 exWorld exDir ⟨3, exDir⟩ exBatch 120 120 0 exRecords
    [] [] (by decide) (by decide) (fun _ _ _ => ⟨_, rfl⟩)

/-! ### Where the bytes of a name lie -/

theorem byteAt_some_lt (mem : List Nat) (i b : Nat) (h : byteAt mem i = some b) :
    i < mem.length := by
  unfold byteAt at h
  by_contra hlt
  have : mem.get? i = none := by simp [List.getElem?_eq_none (Nat.not_lt.mp hlt)]
  rw [this] at h
  cases h

/-- When a byte of the window is NUL the scan finds a NUL at or before it. -/
theorem indexNul_found (mem : List Nat) (start : Nat) :
    ∀ (remaining i j : Nat), i ≤ j → j < i + remaining →
      byteAt mem (start + j) = some 0 →
      ∃ k : Nat, indexNul mem start remaining i = some (k : Int) ∧ i ≤ k ∧ k ≤ j := by
  intro remaining
  induction remaining with
  | zero => intro i j h1 h2 _; omega
  | succ remaining ih =>
    intro i j h1 h2 hj
    have hlt := byteAt_some_lt mem (start + j) 0 hj
    have hi : start + i < mem.length := by omega
    have hb : byteAt mem (start + i) = some (mem[start + i] % 256) := by
      simp [byteAt, List.getElem?_eq_getElem hi]
    unfold indexNul
    rw [hb]
    dsimp only
    split
    · exact ⟨i, rfl, Nat.le_refl _, h1⟩
    · rename_i hne
      have hij : i ≠ j := by
        intro heq
        subst heq
        rw [hb] at hj
        simp only [Option.some.injEq] at hj
        exact hne hj
      obtain ⟨k, hk, hk1, hk2⟩ := ih (i + 1) j (by omega) (by omega) hj
      exact ⟨k, hk, by omega, hk2⟩

/-- The scan reads only the bytes up to the NUL it finds. -/
theorem indexNul_local (mem mem' : List Nat) (start : Nat) :
    ∀ (remaining i k : Nat), indexNul mem start remaining i = some (k : Int) →
      (∀ x, i ≤ x → x ≤ k → mem'.get? (start + x) = mem.get? (start + x)) →
      indexNul mem' start remaining i = some (k : Int) := by
  intro remaining
  induction remaining with
  | zero =>
    intro i k h _
    simp only [indexNul, Option.some.injEq] at h
    omega
  | succ remaining ih =>
    intro i k h hagree
    have hbound := (indexNul_spec mem start (remaining + 1) i k h).2
    have hik : i ≤ k := by
      rcases hbound with hneg | ⟨_, h1, _⟩
      · omega
      · simpa using h1
    unfold indexNul at h ⊢
    have hb : byteAt mem' (start + i) = byteAt mem (start + i) := by
      unfold byteAt
      rw [hagree i (Nat.le_refl _) hik]
    rw [hb]
    split at h
    · cases h
    · rename_i b hbyte
      split at h
      · rename_i hb0
        rw [if_pos hb0]
        exact h
      · rename_i hb0
        rw [if_neg hb0]
        exact ih (i + 1) k h (fun x hx hxk => hagree x (by omega) hxk)

/-- The byte at the index that the scan returns is NUL. -/
theorem indexNul_at_nul (mem : List Nat) (start : Nat) :
    ∀ (remaining i k : Nat), indexNul mem start remaining i = some (k : Int) →
      byteAt mem (start + k) = some 0 := by
  intro remaining
  induction remaining with
  | zero =>
    intro i k h
    simp only [indexNul, Option.some.injEq] at h
    omega
  | succ remaining ih =>
    intro i k h
    unfold indexNul at h
    split at h
    · cases h
    · rename_i b hb
      split at h
      · rename_i hb0
        simp only [Option.some.injEq, Int.natCast_inj] at h
        subst h
        rw [hb, hb0]
      · exact ih (i + 1) k h

theorem take_drop_congr (mem mem' : List Nat) (c k : Nat)
    (h : ∀ x, x < k → mem'.get? (c + x) = mem.get? (c + x)) :
    (mem'.drop c).take k = (mem.drop c).take k := by
  apply List.ext_get?
  intro x
  by_cases hx : x < k
  · have := h x hx
    simp only [List.get?_eq_getElem?] at this ⊢
    rw [List.getElem?_take_of_lt hx, List.getElem?_take_of_lt hx, List.getElem?_drop,
      List.getElem?_drop]
    exact this
  · simp only [List.get?_eq_getElem?]
    rw [List.getElem?_eq_none, List.getElem?_eq_none]
    · simp [List.length_take]; omega
    · simp [List.length_take]; omega


set_option maxRecDepth 8000 in
/-- C17 (counterexample): the first record declares 24 bytes and its name
"abcde" fills it to the end without a NUL.  The scan goes on into the next
record: the extracted name has six bytes, the last being the first byte of the
identifier of the next record, so it changes with that record (7 or 9); the
same byte is read when the span ends after the first record; and in a run of
`readdirents` whose second batch is that single record, the returned name ends
with a byte left in the scratch buffer by the first batch. -/
theorem name_scan_leaves_record :
    readLE (exUnterminated 7) (0 + linuxAmd64.reclenOff) linuxAmd64.reclenSize = some 24 ∧
    extractName linuxAmd64 (exUnterminated 7) 0 = some [97, 98, 99, 100, 101, 7] ∧
    extractName linuxAmd64 (exUnterminated 9) 0 = some [97, 98, 99, 100, 101, 9] ∧
    (exUnterminated 7).take 24 = (exUnterminated 9).take 24 ∧
    decodeStep linuxAmd64 exWorld exDir ⟨3, exDir⟩ (exUnterminated 7) 24 0 =
      .append 24 { name := [97, 98, 99, 100, 101, 7], modeType := 0 } [] ∧
    readdirents linuxAmd64 exWorldStale 10 exDir =
      .done ({ entries := [⟨[120], 0⟩, ⟨[121], 0⟩, ⟨[97, 98, 99, 100, 101, 7], 0⟩]
               err := none },
        [.open exDir, .read 3, .read 3, .read 3, .close 3]) := by
  refine ⟨by decide, by decide, by decide, by decide, by decide, by decide⟩

/-- C17 (amended): when the name field of the record at `cur` holds a NUL
byte inside the record's declared length, the extracted name and the NUL that
ends it lie inside the record, and the name is the same in every scratch
buffer that agrees with this one on the bytes of the record: it is a function
of the record's own bytes only. -/
theorem name_inside_terminated_record (L : DirentLayout) (mem : List Nat)
    (cur reclen j : Nat)
    (hj : j < L.nameCap) (hin : L.nameOff + j < reclen)
    (hnul : byteAt mem (cur + L.nameOff + j) = some 0) :
    ∃ nm, extractName L mem cur = some nm ∧
      nm.length ≤ j ∧ L.nameOff + nm.length < reclen ∧
      byteAt mem (cur + L.nameOff + nm.length) = some 0 ∧
      nm = ((mem.drop (cur + L.nameOff)).take nm.length).map (· % 256) ∧
      ∀ mem' : List Nat,
        (∀ i, cur ≤ i → i < cur + reclen → mem'.get? i = mem.get? i) →
        extractName L mem' cur = some nm := by
  obtain ⟨k, hk, _, hkj⟩ :=
    indexNul_found mem (cur + L.nameOff) L.nameCap 0 j (Nat.zero_le _) (by omega) hnul
  have hne : ¬ ((k : Int) = -1) := by omega
  have hlt : cur + L.nameOff + j < mem.length := byteAt_some_lt _ _ _ hnul
  have hlen : ((mem.drop (cur + L.nameOff)).take k).length = k := by
    simp [List.length_take, List.length_drop]
    omega
  have hex : extractName L mem cur =
      some (((mem.drop (cur + L.nameOff)).take k).map (· % 256)) := by
    unfold extractName
    rw [hk]
    simp [hne]
  refine ⟨_, hex, ?_, ?_, ?_, ?_, ?_⟩
  · simp [hlen]
    omega
  · simp [hlen]
    omega
  · simp only [List.length_map, hlen]
    exact indexNul_at_nul mem (cur + L.nameOff) L.nameCap 0 k hk
  · simp only [List.length_map, hlen]
  · intro mem' hagree
    have hk' : indexNul mem' (cur + L.nameOff) L.nameCap 0 = some (k : Int) :=
      indexNul_local mem mem' (cur + L.nameOff) L.nameCap 0 k hk
        (fun x _ hx => hagree _ (by omega) (by omega))
    have htake : (mem'.drop (cur + L.nameOff)).take k = (mem.drop (cur + L.nameOff)).take k :=
      take_drop_congr mem mem' (cur + L.nameOff) k
        (fun x hx => hagree _ (by omega) (by omega))
    unfold extractName
    rw [hk']
    simp [hne, htake]

theorem name_inside_terminated_record_witness :
    ∃ nm, extractName linuxAmd64 exBatch 48 = some nm ∧
      nm.length ≤ 1 ∧ linuxAmd64.nameOff + nm.length < 24 ∧
      byteAt exBatch (48 + linuxAmd64.nameOff + nm.length) = some 0 ∧
      nm = ((exBatch.drop (48 + linuxAmd64.nameOff)).take nm.length).map (· % 256) ∧
      ∀ mem' : List Nat,
        (∀ i, 48 ≤ i → i < 48 + 24 → mem'.get? i = exBatch.get? i) →
        extractName linuxAmd64 mem' 48 = some nm :=
  name_inside_terminated_record linuxAmd64 exBatch 48 24 1 (by decide) (by decide) (by decide)

/-! ### Records that keep to themselves -/

theorem readLE_range_congr (m m2 : List Nat) :
    ∀ (size off : Nat), (∀ x, x < size → m2.get? (off + x) = m.get? (off + x)) →
      readLE m2 off size = readLE m off size := by
  intro size
  induction size with
  | zero => intro off _; rfl
  | succ size ih =>
    intro off h
    unfold readLE
    have h0 : byteAt m2 off = byteAt m off := by
      unfold byteAt
      have := h 0 (by omega)
      simpa using congrArg (Option.map (· % 256)) this
    have hrest : readLE m2 (off + 1) size = readLE m (off + 1) size :=
      ih (off + 1) (fun x hx => by
        have := h (x + 1) (by omega)
        rw [show off + 1 + x = off + (x + 1) by omega]
        exact this)
    rw [h0, hrest]

/-- The scan gives the same answer on a buffer that agrees on the bytes it
read: all of the window when it found no NUL, the bytes up to the NUL
otherwise. -/
theorem indexNul_agree (m m2 : List Nat) (start : Nat) :
    ∀ (remaining i : Nat) (idx : Int), indexNul m start remaining i = some idx →
      (∀ x, i ≤ x → x < i + remaining → (idx = -1 ∨ (x : Int) ≤ idx) →
        m2.get? (start + x) = m.get? (start + x)) →
      indexNul m2 start remaining i = some idx := by
  intro remaining
  induction remaining with
  | zero => intro i idx h _; exact h
  | succ remaining ih =>
    intro i idx h hagree
    have hbound := (indexNul_spec m start (remaining + 1) i idx h).2
    have hi : m2.get? (start + i) = m.get? (start + i) := by
      refine hagree i (Nat.le_refl _) (by omega) ?_
      rcases hbound with hneg | ⟨h0, h1, _⟩
      · exact Or.inl hneg
      · right
        omega
    unfold indexNul at h ⊢
    have hb : byteAt m2 (start + i) = byteAt m (start + i) := by
      unfold byteAt
      rw [hi]
    rw [hb]
    split at h
    · cases h
    · rename_i b hbyte
      split at h
      · rename_i hb0
        rw [if_pos hb0]
        exact h
      · rename_i hb0
        rw [if_neg hb0]
        exact ih (i + 1) idx h (fun x hx hx2 hx3 => hagree x (by omega) (by omega) hx3)

/-- When the scan finds no NUL, the whole window lies inside the buffer. -/
theorem indexNul_none_length (m : List Nat) (start : Nat) :
    ∀ (remaining i : Nat), indexNul m start remaining i = some (-1) →
      remaining = 0 ∨ start + i + remaining ≤ m.length := by
  intro remaining
  induction remaining with
  | zero => intro i _; exact Or.inl rfl
  | succ remaining ih =>
    intro i h
    right
    unfold indexNul at h
    split at h
    · cases h
    · rename_i b hb
      have hlt := byteAt_some_lt m (start + i) b hb
      split at h
      · simp only [Option.some.injEq] at h
        omega
      · rcases ih (i + 1) h with h0 | h1
        · omega
        · omega

/-- The extraction gives the same name on any buffer that agrees on the
bytes of the name and on the byte after it. -/
theorem extractName_local (L : DirentLayout) (m m2 : List Nat) (cur : Nat) (nm : GoString)
    (h : extractName L m cur = some nm)
    (hagree : ∀ x, x ≤ nm.length →
      m2.get? (cur + L.nameOff + x) = m.get? (cur + L.nameOff + x)) :
    extractName L m2 cur = some nm := by
  unfold extractName at h
  split at h
  · cases h
  · rename_i idx hidx
    simp only [Option.some.injEq] at h
    have hbound := (indexNul_spec m (cur + L.nameOff) L.nameCap 0 idx hidx).2
    have hlen : nm.length = (if idx = -1 then L.nameCap else idx.toNat) := by
      rw [← h]
      simp only [List.length_map, List.length_take, List.length_drop]
      rcases hbound with hneg | ⟨h0, _, h2⟩
      · subst hneg
        simp only [if_true]
        rcases indexNul_none_length m (cur + L.nameOff) L.nameCap 0 hidx with hz | hl
        · omega
        · omega
      · have hne : ¬ (idx = -1) := by omega
        simp only [hne, if_false]
        obtain ⟨k, rfl⟩ : ∃ k : Nat, idx = (k : Int) := ⟨idx.toNat, by omega⟩
        have := byteAt_some_lt m _ _ (indexNul_at_nul m (cur + L.nameOff) L.nameCap 0 k hidx)
        simp only [Int.toNat_ofNat]
        omega
    have hidx2 : indexNul m2 (cur + L.nameOff) L.nameCap 0 = some idx := by
      refine indexNul_agree m m2 (cur + L.nameOff) L.nameCap 0 idx hidx ?_
      intro x _ hx hx3
      refine hagree x ?_
      rw [hlen]
      rcases hx3 with hneg | hle
      · subst hneg
        simp only [if_true]
        omega
      · have hne : ¬ (idx = -1) := by omega
        simp only [hne, if_false]
        omega
    have htake : (m2.drop (cur + L.nameOff)).take (if idx = -1 then L.nameCap else idx.toNat) =
        (m.drop (cur + L.nameOff)).take (if idx = -1 then L.nameCap else idx.toNat) :=
      take_drop_congr m m2 (cur + L.nameOff) _
        (fun x hx => hagree x (by rw [hlen]; omega))
    unfold extractName
    rw [hidx2]
    dsimp only
    rw [htake]
    exact congrArg some h

theorem decodeStep_slot (L : DirentLayout) (W : World) (osDirname : GoString) (dh : File)
    (m : List Nat) (n cur reclen : Nat)
    (hreclen : readLE m (cur + L.reclenOff) L.reclenSize = some reclen)
    (hfit : reclen ≤ n - cur)
    (hino : readLE m (cur + L.inoOff) L.inoSize = some 0) :
    decodeStep L W osDirname dh m n cur = .skip (cur + reclen) := by
  unfold decodeStep
  simp [hino, hreclen, Nat.not_lt.mpr hfit]

/-- One iteration of the inner loop at a record that keeps to itself depends
only on the bytes of that record. -/
theorem decodeStep_local (L : DirentLayout) (W : World) (osDirname : GoString) (dh : File)
    (m m2 : List Nat) (n cur reclen : Nat) (nm : GoString)
    (hi : L.inoOff + L.inoSize ≤ reclen) (hr : L.reclenOff + L.reclenSize ≤ reclen)
    (hname : extractName L m cur = some nm)
    (ht : L.typeOff < reclen) (hn : L.nameOff + nm.length < reclen)
    (hagree : ∀ j, j < reclen → m2.get? (cur + j) = m.get? (cur + j)) :
    decodeStep L W osDirname dh m2 n cur = decodeStep L W osDirname dh m n cur := by
  have e1 : readLE m2 (cur + L.reclenOff) L.reclenSize =
      readLE m (cur + L.reclenOff) L.reclenSize :=
    readLE_range_congr m m2 _ _ (fun x hx => by
      rw [Nat.add_assoc]; exact hagree _ (by omega))
  have e2 : readLE m2 (cur + L.inoOff) L.inoSize = readLE m (cur + L.inoOff) L.inoSize :=
    readLE_range_congr m m2 _ _ (fun x hx => by
      rw [Nat.add_assoc]; exact hagree _ (by omega))
  have e3 : byteAt m2 (cur + L.typeOff) = byteAt m (cur + L.typeOff) := by
    unfold byteAt
    rw [hagree _ ht]
  have e4 : extractName L m2 cur = extractName L m cur := by
    rw [hname]
    exact extractName_local L m m2 cur nm hname (fun x hx => by
      rw [Nat.add_assoc]; exact hagree _ (by omega))
  unfold decodeStep
  rw [e1, e2, e3, e4]

theorem agreeOn_get (m m2 : List Nat) (cur len : Nat) (keep : Nat → Bool)
    (h : agreeOn m m2 cur len keep = true) (j : Nat) (hj : j < len) (hk : keep j = true) :
    m2.get? (cur + j) = m.get? (cur + j) := by
  simp only [agreeOn, List.all_eq_true, List.mem_range, Bool.or_eq_true, Bool.not_eq_true',
    beq_iff_eq] at h
  rcases h j hj with h0 | h1
  · rw [hk] at h0; cases h0
  · exact h1

/-- What one step of `slotsOnly` says about the record at the cursor. -/
theorem slotsOnly_step (L : DirentLayout) (m m2 : List Nat) (n f cur : Nat)
    (h : slotsOnly L m m2 n (f + 1) cur = true) (hcur : cur < n) :
    ∃ reclen ino, readLE m (cur + L.reclenOff) L.reclenSize = some reclen ∧
      readLE m (cur + L.inoOff) L.inoSize = some ino ∧ reclen ≤ n - cur ∧
      L.inoOff + L.inoSize ≤ reclen ∧ L.reclenOff + L.reclenSize ≤ reclen ∧
      (ino = 0 → ∀ j, j < reclen →
        (inField L.inoOff L.inoSize j = true ∨ inField L.reclenOff L.reclenSize j = true) →
        m2.get? (cur + j) = m.get? (cur + j)) ∧
      (ino ≠ 0 → ∃ nm, extractName L m cur = some nm ∧ L.typeOff < reclen ∧
        L.nameOff + nm.length < reclen ∧
        ∀ j, j < reclen → m2.get? (cur + j) = m.get? (cur + j)) ∧
      slotsOnly L m m2 n f (cur + reclen) = true := by
  rw [slotsOnly, if_neg (Nat.not_le.mpr hcur)] at h
  split at h
  · rename_i reclen ino h1 h2
    simp only [Bool.and_eq_true, decide_eq_true_eq] at h
    obtain ⟨⟨⟨⟨hfit, hi⟩, hr⟩, hbody⟩, hrest⟩ := h
    refine ⟨reclen, ino, h1, h2, hfit, hi, hr, ?_, ?_, hrest⟩
    · intro h0 j hj hc
      rw [if_pos h0] at hbody
      exact agreeOn_get m m2 cur reclen _ hbody j hj (by
        rcases hc with hc | hc
        · simp [hc]
        · simp [hc])
    · intro h0
      rw [if_neg h0] at hbody
      split at hbody
      · rename_i nm hnm
        simp only [Bool.and_eq_true, decide_eq_true_eq] at hbody
        obtain ⟨⟨ht, hn⟩, hag⟩ := hbody
        exact ⟨nm, hnm, ht, hn, fun j hj => agreeOn_get m m2 cur reclen _ hag j hj rfl⟩
      · cases hbody
  · cases h

/-- On a span that is a sequence of records that keep to themselves, the
inner loop does the same on any two buffers of which one starts with the
bytes of the span and the other with bytes that differ from them only in
removed slots. -/
theorem decodeLoop_slots (L : DirentLayout) (W : World) (osDirname : GoString) (dh : File)
    (m m2 m3 m4 : List Nat) (n : Nat)
    (h3 : ∀ i, i < n → m3.get? i = m2.get? i) (h4 : ∀ i, i < n → m4.get? i = m.get? i) :
    ∀ (f cur : Nat), slotsOnly L m m2 n f cur = true →
      ∀ (fuel : Nat) (entries : List Dirent) (trace : List Event),
        decodeLoop L W osDirname dh m3 n fuel cur entries trace =
          decodeLoop L W osDirname dh m4 n fuel cur entries trace := by
  intro f
  induction f with
  | zero =>
    intro cur h fuel entries trace
    have hn : n ≤ cur := by simpa [slotsOnly] using h
    cases fuel with
    | zero => rfl
    | succ fuel => rw [decodeLoop, decodeLoop, if_pos hn, if_pos hn]
  | succ f ih =>
    intro cur h fuel entries trace
    cases fuel with
    | zero => rfl
    | succ fuel =>
      by_cases hn : n ≤ cur
      · rw [decodeLoop, decodeLoop, if_pos hn, if_pos hn]
      · have hcur : cur < n := Nat.lt_of_not_le hn
        obtain ⟨reclen, ino, h1, h2, hfit, hi, hr, hslot, hlive, hrest⟩ :=
          slotsOnly_step L m m2 n f cur h hcur
        rw [decodeLoop, decodeLoop, if_neg hn, if_neg hn]
        have hstep : decodeStep L W osDirname dh m3 n cur =
            decodeStep L W osDirname dh m4 n cur := by
          by_cases h0 : ino = 0
          · subst h0
            have a1 : readLE m4 (cur + L.reclenOff) L.reclenSize = some reclen := by
              rw [readLE_range_congr m m4 _ _ (fun x hx => by
                rw [Nat.add_assoc]; exact h4 _ (by omega)), h1]
            have a2 : readLE m4 (cur + L.inoOff) L.inoSize = some 0 := by
              rw [readLE_range_congr m m4 _ _ (fun x hx => by
                rw [Nat.add_assoc]; exact h4 _ (by omega)), h2]
            have b1 : readLE m3 (cur + L.reclenOff) L.reclenSize = some reclen := by
              rw [readLE_range_congr m m3 _ _ (fun x hx => by
                rw [Nat.add_assoc, h3 _ (by omega)]
                exact hslot rfl _ (by omega) (Or.inr (by simp [inField]; omega))), h1]
            have b2 : readLE m3 (cur + L.inoOff) L.inoSize = some 0 := by
              rw [readLE_range_congr m m3 _ _ (fun x hx => by
                rw [Nat.add_assoc, h3 _ (by omega)]
                exact hslot rfl _ (by omega) (Or.inl (by simp [inField]; omega))), h2]
            rw [decodeStep_slot L W osDirname dh m3 n cur reclen b1 hfit b2,
              decodeStep_slot L W osDirname dh m4 n cur reclen a1 hfit a2]
          · obtain ⟨nm, hnm, ht, hnl, hag⟩ := hlive h0
            rw [decodeStep_local L W osDirname dh m m3 n cur reclen nm hi hr hnm ht hnl
                (fun j hj => by rw [h3 _ (by omega)]; exact hag j hj),
              decodeStep_local L W osDirname dh m m4 n cur reclen nm hi hr hnm ht hnl
                (fun j hj => h4 _ (by omega))]
        rw [hstep]
        have hc : decodeStep L W osDirname dh m4 n cur = .skip (cur + reclen) ∨
            (∃ d evs, decodeStep L W osDirname dh m4 n cur = .append (cur + reclen) d evs) ∨
            (∃ r evs, decodeStep L W osDirname dh m4 n cur = .ret r evs) ∨
            decodeStep L W osDirname dh m4 n cur = .wild := by
          have a1 : readLE m4 (cur + L.reclenOff) L.reclenSize = some reclen := by
            rw [readLE_range_congr m m4 _ _ (fun x hx => by
              rw [Nat.add_assoc]; exact h4 _ (by omega)), h1]
          unfold decodeStep
          rw [a1]
          simp only [Nat.not_lt.mpr hfit, if_false]
          repeat' split
          all_goals simp
        rcases hc with hc | ⟨d, evs, hc⟩ | ⟨r, evs, hc⟩ | hc
        · rw [hc]; exact ih _ hrest fuel _ _
        · rw [hc]; exact ih _ hrest fuel _ _
        · rw [hc]
        · rw [hc]

theorem decodeLoop_getdents_irrelevant (L : DirentLayout) (W : World)
    (g' : Nat → Nat → Sys (List Nat)) (osDirname : GoString) (dh : File) (mem : List Nat)
    (n : Nat) :
    ∀ (fuel cur : Nat) (entries : List Dirent) (trace : List Event),
      decodeLoop L { W with getdents := g' } osDirname dh mem n fuel cur entries trace =
        decodeLoop L W osDirname dh mem n fuel cur entries trace := by
  intro fuel
  induction fuel with
  | zero => intro cur entries trace; rfl
  | succ fuel ih =>
    intro cur entries trace
    rw [decodeLoop, decodeLoop]
    have hs : decodeStep L { W with getdents := g' } osDirname dh mem n cur =
        decodeStep L W osDirname dh mem n cur := rfl
    rw [hs]
    split
    · rfl
    · split
      · exact ih _ _ _
      · exact ih _ _ _
      · rfl
      · rfl
      · rfl

/-! ### Removed slots: the whole run -/

/-- When every batch is, on its own, a sequence of records that keep to
themselves, the outer loop does the same on a stream that differs only in
removed slots (`batchRel`), whatever the scratch buffer held before. -/
theorem readLoop_slots (L : DirentLayout) (W : World) (g' : Nat → Nat → Sys (List Nat))
    (osDirname : GoString) (dh : File)
    (hrel : ∀ k, batchRel L (W.getdents dh.fd k) (g' dh.fd k) = true) :
    ∀ (fuel : Nat) (mem mem' : List Nat) (k : Nat) (entries : List Dirent)
      (trace : List Event),
      readLoop L { W with getdents := g' } osDirname dh fuel mem' k entries trace =
        readLoop L W osDirname dh fuel mem k entries trace := by
  intro fuel
  induction fuel with
  | zero => intro mem mem' k entries trace; rfl
  | succ fuel ih =>
    intro mem mem' k entries trace
    have hk := hrel k
    rw [readLoop, readLoop]
    have hrd : syscall.ReadDirent { W with getdents := g' } dh.fd k mem' =
        (match g' dh.fd k with
          | .errno e => .error (.errno e)
          | .ok data => .ok ((data.take bufsize).length, fill data mem')) := rfl
    rw [hrd]
    unfold syscall.ReadDirent
    cases hg : W.getdents dh.fd k with
    | errno e =>
      cases hg' : g' dh.fd k with
      | errno e' =>
        rw [hg, hg'] at hk
        simp only [batchRel, beq_iff_eq] at hk
        subst hk
        rfl
      | ok d' =>
        rw [hg, hg'] at hk
        simp [batchRel] at hk
    | ok d =>
      cases hg' : g' dh.fd k with
      | errno e' =>
        rw [hg, hg'] at hk
        simp [batchRel] at hk
      | ok d' =>
        rw [hg, hg'] at hk
        simp only [batchRel, Bool.and_eq_true, beq_iff_eq] at hk
        obtain ⟨hlen, hslots⟩ := hk
        dsimp only
        rw [hlen]
        have hcl : File.Close { W with getdents := g' } dh = File.Close W dh := rfl
        rw [hcl]
        split
        · rfl
        · have hdec := decodeLoop_slots L W osDirname dh (d.take bufsize) (d'.take bufsize)
            (fill d' mem') (fill d mem) (d.take bufsize).length
            (fun i hi => by
              simp only [fill, List.get?_eq_getElem?]
              exact List.getElem?_append_left (by omega))
            (fun i hi => by
              simp only [fill, List.get?_eq_getElem?]
              exact List.getElem?_append_left hi)
            _ 0 hslots fuel entries (trace ++ [.read dh.fd])
          rw [decodeLoop_getdents_irrelevant L W g', hdec]
          split
          · exact ih _ _ _ _ _
          · rfl
          · rfl
          · rfl
          · rfl

set_option maxRecDepth 8000 in
/-- C4 (counterexample): two listings of "/d" that differ only in the name
byte of a removed slot (identifier zero) of the first batch, 98 in one and
113 in the other.  The second batch is one record whose name fills it without
a NUL; its scan goes on into the bytes that the first batch left in the
scratch buffer, so the name that `readdirents` returns for it ends with the
name byte of the removed slot, and the two results differ.  The first batch
is a sequence of records that keep to themselves (`batchRel`); the record of
the second batch does not keep to itself. -/
theorem removed_slot_byte_reaches_result :
    readLE (exSlotBatch 98) (24 + linuxAmd64.inoOff) linuxAmd64.inoSize = some 0 ∧
    readLE (exSlotBatch 113) (24 + linuxAmd64.inoOff) linuxAmd64.inoSize = some 0 ∧
    (exSlotBatch 98).take 43 = (exSlotBatch 113).take 43 ∧
    (exSlotBatch 98).drop 44 = (exSlotBatch 113).drop 44 ∧
    readdirents linuxAmd64 (exWorldSlot 98) 10 exDir =
      .done ({ entries := [⟨[120], 0⟩, ⟨List.replicate 24 97 ++ [98], 0⟩], err := none },
        [.open exDir, .read 3, .read 3, .read 3, .close 3]) ∧
    readdirents linuxAmd64 (exWorldSlot 113) 10 exDir =
      .done ({ entries := [⟨[120], 0⟩, ⟨List.replicate 24 97 ++ [113], 0⟩], err := none },
        [.open exDir, .read 3, .read 3, .read 3, .close 3]) ∧
    readdirents linuxAmd64 (exWorldSlot 98) 10 exDir ≠
      readdirents linuxAmd64 (exWorldSlot 113) 10 exDir ∧
    batchRel linuxAmd64 ((exWorldSlot 98).getdents 3 0) ((exWorldSlot 113).getdents 3 0) =
      true ∧
    batchRel linuxAmd64 ((exWorldSlot 98).getdents 3 1) ((exWorldSlot 113).getdents 3 1) =
      false := by
  refine ⟨by decide, by decide, by decide, by decide, by decide, by decide, by decide,
    by decide, by decide⟩

/-- C4 (amended): take a stream in which every batch is a sequence of
records that keep to themselves: the declared length of a record covers its
identifier and length fields and, if the identifier is not zero, also its
type tag, its name and the byte after the name.  Then `readdirents` does the
same, for every fuel, on any stream that differs from it only in bytes of
records with identifier zero outside their identifier and length fields: the
name and type bytes of a removed slot do not matter.  And a record with
identifier zero contributes nothing: the inner loop goes on at the next
record with the same entries and calls, and in a run that ends well the
returned list is made from the records before it and the records after
it. -/
theorem removed_slot_bytes_ignored (L : DirentLayout) (W : World)
    (g' : Nat → Nat → Sys (List Nat)) (osDirname : GoString) (fd : Nat)
    (hopen : W.openDir osDirname = .ok fd)
    (hrel : ∀ k, batchRel L (W.getdents fd k) (g' fd k) = true) :
    (∀ fuel, readdirents L { W with getdents := g' } fuel osDirname =
      readdirents L W fuel osDirname) ∧
    (∀ (dh : File) (mem : List Nat) (n cur reclen fuel : Nat) (entries : List Dirent)
      (trace : List Event),
      cur < n → readLE mem (cur + L.inoOff) L.inoSize = some 0 →
      readLE mem (cur + L.reclenOff) L.reclenSize = some reclen → reclen ≤ n - cur →
      decodeLoop L W osDirname dh mem n (fuel + 1) cur entries trace =
        decodeLoop L W osDirname dh mem n fuel (cur + reclen) entries trace) ∧
    (∀ (ds : List (List Nat)) (rss : List (List RawRecord)) (pre post : List RawRecord)
      (r : RawRecord) (fuel : Nat),
      (∀ i (h : i < ds.length),
        W.getdents fd i = .ok (ds.get ⟨i, h⟩) ∧ ds.get ⟨i, h⟩ ≠ []) →
      W.getdents fd ds.length = .ok [] →
      batchRecords L (List.replicate bufsize 0) ds = some rss →
      (∀ rs ∈ rss, StatsOk W osDirname rs) →
      W.close fd = none →
      bufsize + ds.length + 1 < fuel →
      rss.flatten = pre ++ r :: post → r.ino = 0 →
      ∃ trace, readdirents L W fuel osDirname =
        .done ({ entries := specEntries W osDirname pre ++ specEntries W osDirname post
                 err := none }, trace)) := by
  refine ⟨?_, ?_, ?_⟩
  · intro fuel
    unfold readdirents
    have ho : os.Open { W with getdents := g' } osDirname = os.Open W osDirname := rfl
    rw [ho]
    simp only [os.Open, hopen]
    exact readLoop_slots L W g' osDirname ⟨fd, osDirname⟩ hrel fuel _ _ 0 [] _
  · intro dh mem n cur reclen fuel entries trace hcur hino hreclen hfit
    rw [decodeLoop, if_neg (Nat.not_le.mpr hcur),
      decodeStep_slot L W osDirname dh mem n cur reclen hreclen hfit hino]
  · intro ds rss pre post r fuel hreads hend hrecs hstat hclose hfuel hsplit hr
    exact removed_slot_not_listed L W osDirname fd ds rss pre post r fuel hopen hreads hend
      hrecs hstat hclose hfuel hsplit hr

set_option maxRecDepth 8000 in
theorem removed_slot_bytes_ignored_witness :
    exWorld.openDir exDir = .ok 3 ∧
    (∀ k, batchRel linuxAmd64 (exWorld.getdents 3 k) (exGetdentsAlt 3 k) = true) ∧
    exGetdentsAlt 3 0 ≠ exWorld.getdents 3 0 ∧
    readdirents linuxAmd64 { exWorld with getdents := exGetdentsAlt } 10 exDir =
      readdirents linuxAmd64 exWorld 10 exDir ∧
    decodeLoop linuxAmd64 exWorld exDir ⟨3, exDir⟩ exBatch 120 (2 + 1) 72 [⟨[97], 0⟩] [] =
      decodeLoop linuxAmd64 exWorld exDir ⟨3, exDir⟩ exBatch 120 2 (72 + 24) [⟨[97], 0⟩] [] ∧
    (∃ trace, readdirents linuxAmd64 exWorld (bufsize + 3) exDir =
      .done ({ entries := specEntries exWorld exDir (exRecords.take 3) ++
                 specEntries exWorld exDir (exRecords.drop 4)
               err := none }, trace)) :=
  have hrel : ∀ k, batchRel linuxAmd64 (exWorld.getdents 3 k) (exGetdentsAlt 3 k) = true :=
    fun k => by
      by_cases hk : k = 0
      · subst hk
        show batchRel linuxAmd64 (.ok exBatch) (.ok exBatchAlt) = true
        decide
      · have h1 : exWorld.getdents 3 k = .ok [] := by
          show (if k = 0 then Sys.ok exBatch else Sys.ok []) = Sys.ok []
          rw [if_neg hk]
        have h2 : exGetdentsAlt 3 k = .ok [] := by
          show (if k = 0 then Sys.ok exBatchAlt else Sys.ok []) = Sys.ok []
          rw [if_neg hk]
        rw [h1, h2]
        decide
  have h := removed_slot_bytes_ignored linuxAmd64 exWorld exGetdentsAlt exDir 3 rfl hrel
  ⟨rfl, hrel, by decide, h.1 10,
    h.2.1 ⟨3, exDir⟩ exBatch 120 72 24 2 [⟨[97], 0⟩] [] (by decide) (by decide) (by decide)
      (by decide),
    h.2.2 [exBatch] [exRecords] (exRecords.take 3) (exRecords.drop 4)
      { ino := 0, reclen := 24, tag := 8, name := [98] } (bufsize + 3)
      (fun i hi => by
        have hi0 : i = 0 := by simpa using hi
        subst hi0
        exact ⟨rfl, show exBatch ≠ [] by decide⟩)
      rfl (by decide) (fun _ _ _ _ _ => ⟨_, rfl⟩) rfl (by decide) (by decide) rfl⟩

end Godirwalk
